import Mathlib

/-!
# Disruptor: the event processors and the sequencer

A shallow embedding of `include/disruptor/EventProcessor.h` (the batch event processor
and its run loop, the no-op processor) and of `include/disruptor/sequencer.h`.

* `int64_t` sequence numbers are modelled by `Int`; the development is about runs in which
  no sequence number reaches the ends of the 64-bit range (signed overflow is undefined in
  the source language, so the source gives no meaning to such runs).
* The collaborators of the processor (ring buffer, sequence barrier, event handler,
  exception handler) are parameters, collected in `Env`.  Each of them answers a call as
  an arbitrary function of the whole history of calls made so far, so that every
  deterministic stateful handler and every sequence of barrier results is an instance.
* Every call to a collaborator and every write of the processor's own `Sequence` is
  appended to a trace, so that statements about the order of calls and about "every point
  of the run" are statements about the trace and its initial segments.
* `while (true)` is unrolled by an iteration budget; a run that uses its budget up is
  reported as still looping, with the state and trace reached so far.
-/

namespace Disruptor

/-! ## Exceptions and calls -/

/-- What a call can throw, split the way the `catch` clauses of `run` split it. -/
inductive Raised (E : Type) where
  /-- An `AlertException`: the cancellation signal of the barrier. -/
  | alert : Raised E
  /-- Any other exception derived from `std::exception`, carrying the error `e`. -/
  | std (e : E) : Raised E
  /-- An exception that is neither: no `catch` clause of `run` matches it. -/
  | foreign : Raised E
  deriving DecidableEq, Repr

/-- One observable action of `run`: a call to a collaborator, or a write of `sequence_`. -/
inductive Call (T E : Type) where
  /-- The call `event_handler_->onStart()`. -/
  | onStart : Call T E
  /-- The call `sequence_barrier_->waitFor(sequence, wait_)`. -/
  | waitFor (sequence : Int) : Call T E
  /-- The call `event_handler_->onEvent(sequence, isEndOfBatch, event)`;
  `event = none` is the `NULL` event of the idle tick. -/
  | onEvent (sequence : Int) (isEndOfBatch : Bool) (event : Option T) : Call T E
  /-- The call `exception_handler_->handle(e, sequence, event)`. -/
  | handle (e : E) (sequence : Int) (event : Option T) : Call T E
  /-- The write `sequence_.set(value)`. -/
  | set (value : Int) : Call T E
  /-- The call `event_handler_->onShutdown()`. -/
  | onShutdown : Call T E
  deriving DecidableEq, Repr

/-- The collaborators and configuration a `BatchEventProcessor` is constructed with.
`T` is the type of ring-buffer slots (what a `T*` returned by `get` points to), `E` the
type of errors carried by `std::exception`s.  Every callback receives the trace of the
actions that came before the call. -/
structure Env (T E : Type) where
  /-- The slot `ring_buffer_->get(sequence)`. -/
  get : Int → T
  /-- The result of `sequence_barrier_->waitFor(sequence, wait_)`, given the alert flag. -/
  waitFor : Bool → List (Call T E) → Int → Except (Raised E) Int
  /-- The result of `event_handler_->onStart()`. -/
  onStart : List (Call T E) → Except (Raised E) Unit
  /-- The result of `event_handler_->onEvent(sequence, isEndOfBatch, event)`. -/
  onEvent : List (Call T E) → Int → Bool → Option T → Except (Raised E) Unit
  /-- The result of `event_handler_->onShutdown()`. -/
  onShutdown : List (Call T E) → Except (Raised E) Unit
  /-- The field `exception_handler_`: `none` is the null pointer. -/
  exception_handler_ :
    Option (List (Call T E) → E → Int → Option T → Except (Raised E) Unit)
  /-- The value `wait_.ticks()` of the configured idle duration. -/
  ticks : Int

/-! ## The processor -/

/-- The mutable state of a `BatchEventProcessor` together with the alert flag of the
barrier it holds. -/
structure BatchEventProcessor where
  /-- The atomic flag `running_`. -/
  running_ : Bool
  /-- The value of the processor's own `Sequence`, `sequence_`. -/
  sequence_ : Int
  /-- The alert flag of `*sequence_barrier_`. -/
  alerted : Bool
  deriving DecidableEq, Repr

/-- Modelled from the spec: `SequenceBarrier::alert` (the barrier classes are not among the
sources).  "`alert()`: sets a cancellation flag, observed by all current and future
`waitFor` calls". -/
def alert (p : BatchEventProcessor) : BatchEventProcessor :=
  { p with alerted := true }

/-- The store `running_.store(value)`. -/
def store (p : BatchEventProcessor) (value : Bool) : BatchEventProcessor :=
  { p with running_ := value }

/-- The constructor: `running_(false)`; the initial value of the `Sequence` and the state
of the barrier handed in are parameters. -/
def construct (initial : Int) (barrierAlerted : Bool) : BatchEventProcessor :=
  { running_ := false, sequence_ := initial, alerted := barrierAlerted }

/-- `BatchEventProcessor::halt`:
`running_.store(false); sequence_barrier_->alert();`. -/
def halt (p : BatchEventProcessor) : BatchEventProcessor :=
  alert (store p false)

/-- The atomic `compare_exchange_strong(expected, desired)` on a flag holding `current`:
whether it succeeded, and the value the flag holds afterwards. -/
def compare_exchange_strong (current expected desired : Bool) : Bool × Bool :=
  if current = expected then (true, desired) else (false, current)

/-- The state of an activation of `run` inside its loop: the processor, the locals
`next_sequence` and `event`, and the trace of the actions so far. -/
structure Frame (T E : Type) where
  /-- The processor object. -/
  proc : BatchEventProcessor
  /-- The local `next_sequence`. -/
  next_sequence : Int
  /-- The local `event`, a nullable pointer to a slot. -/
  event : Option T
  /-- The actions performed so far. -/
  trace : List (Call T E)

/-- How one pass through the body of `while (true)` ends. -/
inductive Step (E : Type) where
  /-- The `try` block ran to its end, `sequence_.set(next_sequence - 1L)` included. -/
  | committed : Step E
  /-- The block `catch(const std::exception& e)` ran to its end. -/
  | recovered : Step E
  /-- The block `catch(const AlertException& e)`: `break`. -/
  | alerted : Step E
  /-- An exception leaves `run`. -/
  | thrown (r : Raised E) : Step E
  deriving DecidableEq, Repr

variable {T E : Type}

/-- The inner loop
`while (next_sequence <= available_sequence) { event = get; onEvent; next_sequence++; }`,
unrolled at most `n` times.  The result is the exception that left the loop, if any. -/
def deliverLoop (env : Env T E) (available_sequence : Int) :
    Nat → Frame T E → Option (Raised E) × Frame T E
  | 0, f => (none, f)
  | n + 1, f =>
    if f.next_sequence ≤ available_sequence then
      let event := some (env.get f.next_sequence)
      let isEndOfBatch := decide (f.next_sequence = available_sequence)
      let f1 : Frame T E :=
        { f with event := event,
                 trace := f.trace ++ [Call.onEvent f.next_sequence isEndOfBatch event] }
      match env.onEvent f.trace f.next_sequence isEndOfBatch event with
      | .error r => (some r, f1)
      | .ok _ => deliverLoop env available_sequence n
          { f1 with next_sequence := f.next_sequence + 1 }
    else (none, f)

/-- The inner loop of `run`: the number of passes left is
`available_sequence + 1 - next_sequence` when that is positive, and none otherwise. -/
def deliver (env : Env T E) (available_sequence : Int) (f : Frame T E) :
    Option (Raised E) × Frame T E :=
  deliverLoop env available_sequence (available_sequence + 1 - f.next_sequence).toNat f

/-- The two statements that end the block `catch(const std::exception& e)`:
`sequence_.set(next_sequence); next_sequence++;`. -/
def skip (f : Frame T E) : Frame T E :=
  { f with proc := { f.proc with sequence_ := f.next_sequence },
           next_sequence := f.next_sequence + 1,
           trace := f.trace ++ [Call.set f.next_sequence] }

/-- The `catch` clauses of the loop body, entered with the exception `r` in frame `f`. -/
def catchBlock (env : Env T E) (r : Raised E) (f : Frame T E) : Step E × Frame T E :=
  match r with
  | .alert => (.alerted, f)
  | .foreign => (.thrown .foreign, f)
  | .std e =>
    match env.exception_handler_ with
    | none => (.recovered, skip f)
    | some handle =>
      let f1 : Frame T E :=
        { f with trace := f.trace ++ [Call.handle e f.next_sequence f.event] }
      match handle f.trace e f.next_sequence f.event with
      | .error r1 => (.thrown r1, f1)
      | .ok _ => (.recovered, skip f1)

/-- The statement `sequence_.set(next_sequence - 1L)` that ends the `try` block. -/
def commit (f : Frame T E) : Step E × Frame T E :=
  (.committed,
    { f with proc := { f.proc with sequence_ := f.next_sequence - 1 },
             trace := f.trace ++ [Call.set (f.next_sequence - 1)] })

/-- The idle tick and the commit: the part of the `try` block after the inner loop. -/
def afterBatch (env : Env T E) (available_sequence : Int) (f : Frame T E) :
    Step E × Frame T E :=
  if env.ticks ≠ 0 then
    let isEndOfBatch := decide (f.next_sequence = available_sequence)
    let f1 : Frame T E :=
      { f with trace := f.trace ++ [Call.onEvent f.next_sequence isEndOfBatch none] }
    match env.onEvent f.trace f.next_sequence isEndOfBatch none with
    | .error r => catchBlock env r f1
    | .ok _ => commit f1
  else commit f

/-- One pass through the body of `while (true)`. -/
def iteration (env : Env T E) (f : Frame T E) : Step E × Frame T E :=
  let f0 : Frame T E := { f with trace := f.trace ++ [Call.waitFor f.next_sequence] }
  match env.waitFor f.proc.alerted f.trace f.next_sequence with
  | .error r => catchBlock env r f0
  | .ok available_sequence =>
    match deliver env available_sequence f0 with
    | (some r, f1) => catchBlock env r f1
    | (none, f1) => afterBatch env available_sequence f1

/-- How the loop `while (true)` is left. -/
inductive LoopExit (E : Type) where
  /-- By `break`, after an `AlertException`. -/
  | broke : LoopExit E
  /-- By an exception that leaves `run`. -/
  | threw (r : Raised E) : LoopExit E
  /-- Not at all within the iteration budget. -/
  | looping : LoopExit E
  deriving DecidableEq, Repr

/-- The loop `while (true) { ... }`, for at most `n` passes. -/
def loop (env : Env T E) : Nat → Frame T E → LoopExit E × Frame T E
  | 0, f => (.looping, f)
  | n + 1, f =>
    match iteration env f with
    | (.committed, f1) => loop env n f1
    | (.recovered, f1) => loop env n f1
    | (.alerted, f1) => (.broke, f1)
    | (.thrown r, f1) => (.threw r, f1)

/-- How a call of `run` ends. -/
inductive RunResult (E : Type) where
  /-- The call returned. -/
  | returned : RunResult E
  /-- The call threw `std::runtime_error("Thread is already running")`. -/
  | alreadyRunning : RunResult E
  /-- An exception thrown by a collaborator left the call. -/
  | propagated (r : Raised E) : RunResult E
  /-- The call is still inside `while (true)` when the iteration budget is used up. -/
  | looping : RunResult E
  deriving DecidableEq, Repr

/-- The frame in which `run` enters its loop, after `onStart` returned:
`T* event = NULL; int64_t next_sequence = sequence_.get() + 1L;`. -/
def enter (p : BatchEventProcessor) (trace : List (Call T E)) : Frame T E :=
  { proc := p, next_sequence := p.sequence_ + 1, event := none, trace := trace }

/-- What follows the loop: `event_handler_->onShutdown(); running_.store(false);`. -/
def leave (env : Env T E) (f : Frame T E) :
    RunResult E × BatchEventProcessor × List (Call T E) :=
  match env.onShutdown f.trace with
  | .error r => (.propagated r, f.proc, f.trace ++ [Call.onShutdown])
  | .ok _ => (.returned, store f.proc false, f.trace ++ [Call.onShutdown])

/-- `BatchEventProcessor::run`, with `while (true)` limited to `fuel` passes, called on the
processor `p` after the actions `trace`. -/
def run (env : Env T E) (fuel : Nat) (p : BatchEventProcessor) (trace : List (Call T E)) :
    RunResult E × BatchEventProcessor × List (Call T E) :=
  match compare_exchange_strong p.running_ false true with
  | (false, flag) => (.alreadyRunning, store p flag, trace)
  | (true, flag) =>
    let p1 := store p flag
    match env.onStart trace with
    | .error r => (.propagated r, p1, trace ++ [Call.onStart])
    | .ok _ =>
      match loop env fuel (enter p1 (trace ++ [Call.onStart])) with
      | (.broke, f) => leave env f
      | (.threw r, f) => (.propagated r, f.proc, f.trace)
      | (.looping, f) => (.looping, f.proc, f.trace)

/-! ## Reading a trace -/

/-- The sequence numbers of the `onEvent` calls of a trace that carry a ring-buffer slot,
in the order of the calls. -/
def delivered : List (Call T E) → List Int
  | [] => []
  | Call.onEvent s _ (some _) :: l => s :: delivered l
  | _ :: l => delivered l

/-- The slot deliveries of a batch that nothing interrupts: one `onEvent` call for each of
`next, next + 1, ..., available`, in this order, with the slot of that sequence, flagged
as the end of the batch when the sequence is `available`. -/
def batch (env : Env T E) (available next : Int) : List (Call T E) :=
  (List.range (available + 1 - next).toNat).map fun (i : Nat) =>
    Call.onEvent (next + (i : Int)) (decide (next + (i : Int) = available))
      (some (env.get (next + (i : Int))))

/-- The idle tick at `sequence`: one `onEvent` call with the null event and the flag
`false` when the idle duration is not zero, and nothing when it is zero. -/
def idleTick (env : Env T E) (sequence : Int) : List (Call T E) :=
  if env.ticks ≠ 0 then [Call.onEvent sequence false none] else []

/-- The frame at the head of pass `k + 1` of the loop entered in frame `f`, when the loop
gets that far: each of the `k` passes before it ended in a commit or in a recovery. -/
def loopHead (env : Env T E) : Nat → Frame T E → Option (Frame T E)
  | 0, f => some f
  | k + 1, f =>
    match iteration env f with
    | (.committed, f1) => loopHead env k f1
    | (.recovered, f1) => loopHead env k f1
    | (.alerted, _) => none
    | (.thrown _, _) => none

/-- The frame `f'` comes after the frame `f` in an activation of `run`: `next_sequence` has
not gone down, the trace of `f'` is the trace of `f` with actions added at its end, none
of them `onStart` or `onShutdown`, and every slot delivered by the added actions is the
slot of a sequence at or above the `next_sequence` of `f`. -/
def Extends (f f' : Frame T E) : Prop :=
  f.next_sequence ≤ f'.next_sequence ∧
  ∃ l, f'.trace = f.trace ++ l ∧
    (∀ c ∈ l, c ≠ Call.onStart ∧ c ≠ Call.onShutdown) ∧
    ∀ s ∈ delivered l, f.next_sequence ≤ s

/-! ## Interleavings of `run` and `halt` -/

/-- The processor shared by several callers, with the number of activations of `run` that
are between their successful compare-and-set and their return. -/
structure Shared where
  /-- The processor object. -/
  proc : BatchEventProcessor
  /-- How many activations of `run` have passed the compare-and-set and not returned. -/
  runners : Nat
  deriving DecidableEq, Repr

/-- The atomic steps of the callers of one processor. -/
inductive Action where
  /-- A call of `run` executes `running_.compare_exchange_strong(expected, true)`. -/
  | runEnter : Action
  /-- A call of `halt`. -/
  | halt : Action
  /-- An activation of `run` has left its loop and executes `running_.store(false)`,
  then returns. -/
  | runExit : Action
  deriving DecidableEq, Repr

/-- One atomic step.  A `run` whose compare-and-set fails throws and is no runner; there
is no `runExit` step when no activation is inside `run`. -/
def Shared.step (s : Shared) : Action → Shared
  | .runEnter =>
    match compare_exchange_strong s.proc.running_ false true with
    | (true, flag) => { proc := store s.proc flag, runners := s.runners + 1 }
    | (false, flag) => { proc := store s.proc flag, runners := s.runners }
  | .halt => { s with proc := Disruptor.halt s.proc }
  | .runExit =>
    if 0 < s.runners then { proc := store s.proc false, runners := s.runners - 1 } else s

/-- The state after the steps `steps`, taken in this order from the state `s`. -/
def Shared.steps (s : Shared) (steps : List Action) : Shared :=
  steps.foldl Shared.step s

/-- A freshly constructed processor, with no activation of `run`. -/
def Shared.fresh (initial : Int) (barrierAlerted : Bool) : Shared :=
  { proc := construct initial barrierAlerted, runners := 0 }

/-! ## Scenarios

Slots are named by their index in a ring buffer, `sequence % capacity`; errors are
numbers. -/

/-- Scenario A: capacity 4, sequences 0..2 are published and nothing more; the barrier
answers 2 to a wait for 0, 1 or 2 and reports the alert afterwards; the handler never
raises; no idle duration. -/
def scenarioA : Env Int Nat :=
  { get := fun s => s % 4
    waitFor := fun _ _ n => if n ≤ 2 then .ok 2 else .error .alert
    onStart := fun _ => .ok ()
    onEvent := fun _ _ _ _ => .ok ()
    onShutdown := fun _ => .ok ()
    exception_handler_ := none
    ticks := 0 }

/-- A barrier that times out: sequences 0..2 are published and nothing more, every wait
returns 2; the handler never raises; the idle duration is 1000 ticks. -/
def scenarioIdle : Env Int Nat :=
  { get := fun s => s % 4
    waitFor := fun _ _ _ => .ok 2
    onStart := fun _ => .ok ()
    onEvent := fun _ _ _ _ => .ok ()
    onShutdown := fun _ => .ok ()
    exception_handler_ := none
    ticks := 1000 }

/-- Scenario C: capacity 16, sequences 0..9 are published; the handler raises the error 7
on sequence 5 and returns otherwise; an exception handler is configured and returns; the
barrier reports the alert once 0..9 are behind; no idle duration. -/
def scenarioC : Env Int Nat :=
  { get := fun s => s % 16
    waitFor := fun _ _ n => if n ≤ 9 then .ok 9 else .error .alert
    onStart := fun _ => .ok ()
    onEvent := fun _ s _ _ => if s = 5 then .error (.std 7) else .ok ()
    onShutdown := fun _ => .ok ()
    exception_handler_ := some (fun _ _ _ _ => .ok ())
    ticks := 0 }

/-- An idle tick that raises: capacity 4, idle duration 1 tick; sequences 0..2 are
published at first and 3..4 later, and the barrier reports the alert once 0..4 are
behind; the handler raises the error 7 on the idle tick at sequence 3 and returns
otherwise; an exception handler is configured and returns. -/
def idleTickRaises : Env Int Nat :=
  { get := fun s => s % 4
    waitFor := fun _ _ n =>
      if n ≤ 2 then .ok 2 else if n ≤ 4 then .ok 4 else .error .alert
    onStart := fun _ => .ok ()
    onEvent := fun _ s _ event => if event = none ∧ s = 3 then .error (.std 7) else .ok ()
    onShutdown := fun _ => .ok ()
    exception_handler_ := some (fun _ _ _ _ => .ok ())
    ticks := 1 }

/-! ## The `try` block and the actions of the loop -/

/-- The `try` block of the loop body, from the wait to `sequence_.set(next_sequence - 1L)`:
the exception that leaves it, if any, and the frame in which it is left. -/
def tryBlock (env : Env T E) (f : Frame T E) : Option (Raised E) × Frame T E :=
  let f0 : Frame T E := { f with trace := f.trace ++ [Call.waitFor f.next_sequence] }
  match env.waitFor f.proc.alerted f.trace f.next_sequence with
  | .error r => (some r, f0)
  | .ok available_sequence =>
    match deliver env available_sequence f0 with
    | (some r, f1) => (some r, f1)
    | (none, f1) =>
      if env.ticks ≠ 0 then
        let isEndOfBatch := decide (f1.next_sequence = available_sequence)
        let f2 : Frame T E :=
          { f1 with trace := f1.trace ++ [Call.onEvent f1.next_sequence isEndOfBatch none] }
        match env.onEvent f1.trace f1.next_sequence isEndOfBatch none with
        | .error r => (some r, f2)
        | .ok _ => (none, (commit f2).2)
      else (none, (commit f1).2)

/-- The actions the loop of `run` makes with the configuration of `env`: waits, slot
deliveries, writes of the `Sequence`; idle ticks, flagged `false`, only when the idle
duration is not zero; calls of the exception handler only when one is configured; never
`onStart` or `onShutdown`. -/
def madeByLoop (env : Env T E) : Call T E → Prop
  | Call.onStart => False
  | Call.waitFor _ => True
  | Call.onEvent _ _ (some _) => True
  | Call.onEvent _ isEndOfBatch none => env.ticks ≠ 0 ∧ isEndOfBatch = false
  | Call.handle _ _ _ => env.exception_handler_.isSome = true
  | Call.set _ => True
  | Call.onShutdown => False

/-! ## The writes of the `Sequence` in a trace -/

/-- The value of the processor's `Sequence` after the actions of a trace, when it was
`current` before them: the value of the last write, if there is one. -/
def sequenceAfter (current : Int) : List (Call T E) → Int
  | [] => current
  | Call.set value :: l => sequenceAfter value l
  | _ :: l => sequenceAfter current l

/-- No write of the `Sequence` in the trace takes it below the value it has at that
point, when it is `current` before the trace. -/
def nonRewinding (current : Int) : List (Call T E) → Prop
  | [] => True
  | Call.set value :: l => current ≤ value ∧ nonRewinding value l
  | _ :: l => nonRewinding current l

/-- The frame `f'` is reached from the frame `f` by actions added to the trace, whose
writes of the `Sequence` never rewind it and leave it at the value it has in `f'`. -/
def Writes (f f' : Frame T E) : Prop :=
  ∃ l, f'.trace = f.trace ++ l ∧ nonRewinding f.proc.sequence_ l ∧
    sequenceAfter f.proc.sequence_ l = f'.proc.sequence_

/-- Scenario C without an exception handler: capacity 16, sequences 0..9 are published;
the handler raises the error 7 on sequence 5 and returns otherwise; `exception_handler_`
is null; the barrier reports the alert once 0..9 are behind; no idle duration. -/
def scenarioNoHandler : Env Int Nat :=
  { get := fun s => s % 16
    waitFor := fun _ _ n => if n ≤ 9 then .ok 9 else .error .alert
    onStart := fun _ => .ok ()
    onEvent := fun _ s _ _ => if s = 5 then .error (.std 7) else .ok ()
    onShutdown := fun _ => .ok ()
    exception_handler_ := none
    ticks := 0 }

/-! ## The sequencer

A shallow embedding of `include/disruptor/sequencer.h`.  The gating sequences are held by
their current values; `signalAllWhenBlocking` changes no state of the sequencer and is
left out; `static_cast<int>` of a value between `-buffer_size_` and `buffer_size_` is the
identity.  An operation that blocks for ever in a state where nothing else moves gives
`none`. -/

/-- Modelled from the spec: the claim strategies (`claim_strategy.h` is not among the
sources), "polymorphic over {single-producer, multi-producer}". -/
inductive ClaimStrategyOption where
  /-- One producer: a plain counter, publication is a direct set of the cursor. -/
  | singleProducer : ClaimStrategyOption
  /-- Several producers: publications are made visible in the order of the claims. -/
  | multiProducer : ClaimStrategyOption
  deriving DecidableEq, Repr

/-- The state of a `Sequencer`: `buffer_size_`, the value of `cursor_`, the values of the
gating sequences, and the claim strategy with the value of its counter. -/
structure Sequencer where
  /-- The field `buffer_size_`, already rounded by `ceilToPow2`. -/
  buffer_size_ : Int
  /-- The value of the `Sequence` `cursor_`. -/
  cursor_ : Int
  /-- The values of the sequences in `gating_sequences_`. -/
  gating_sequences_ : List Int
  /-- Which claim strategy `claim_strategy_` is. -/
  claim_strategy_option : ClaimStrategyOption
  /-- The counter of the claim strategy: the last sequence claimed. -/
  claimed : Int
  deriving DecidableEq, Repr

/-- Modelled from the spec: `getMinimumSequence` (not among the sources), "the minimum of
all gating sequences"; for no sequence at all the model takes the largest 64-bit value. -/
def getMinimumSequence : List Int → Int
  | [] => 2 ^ 63 - 1
  | g :: gs => gs.foldl min g

namespace Sequencer

/-- The constructor: the rounded buffer size, the claim strategy, and the initial value of
a `Sequence` (for the cursor and for the counter of the claim strategy) are parameters;
no gating sequences. -/
def construct (buffer_size_ : Int) (claim_strategy_option : ClaimStrategyOption)
    (initial : Int) : Sequencer :=
  { buffer_size_ := buffer_size_, cursor_ := initial, gating_sequences_ := [],
    claim_strategy_option := claim_strategy_option, claimed := initial }

/-- `Sequencer::setGatingSequences`: `gating_sequences_ = sequences;`. -/
def setGatingSequences (s : Sequencer) (sequences : List Int) : Sequencer :=
  { s with gating_sequences_ := sequences }

/-- `Sequencer::capacity`: `return buffer_size_;`. -/
def capacity (s : Sequencer) : Int := s.buffer_size_

/-- `Sequencer::getCursor`: `return cursor_.get();`. -/
def getCursor (s : Sequencer) : Int := s.cursor_

/-- `Sequencer::occupiedCapacity`:
`return static_cast<int>((buffer_size_ + produced - consumed) % buffer_size_);`, with the
remainder of the source language, which truncates towards zero. -/
def occupiedCapacity (s : Sequencer) : Int :=
  let consumed := getMinimumSequence s.gating_sequences_
  let produced := s.cursor_
  Int.tmod (s.buffer_size_ + produced - consumed) s.buffer_size_

/-- `Sequencer::remainingCapacity`:
`return this->capacity() - this->occupiedCapacity();`. -/
def remainingCapacity (s : Sequencer) : Int :=
  s.capacity - s.occupiedCapacity

/-- Modelled from the spec: `ClaimStrategy::incrementAndGet` (not among the sources).
"Claims the next sequence.  Must block while `claimed_next - buffer_size >=
min(gating_sequences)`." -/
def incrementAndGet (s : Sequencer) : Option (Int × Sequencer) :=
  if s.claimed + 1 - s.buffer_size_ < getMinimumSequence s.gating_sequences_ then
    some (s.claimed + 1, { s with claimed := s.claimed + 1 })
  else none

/-- Modelled from the spec: `ClaimStrategy::setSequence` (not among the sources).
"Forces the internal counter to a specific value after waiting for the same capacity
condition." -/
def setSequence (s : Sequencer) (sequence : Int) : Option Sequencer :=
  if sequence - s.buffer_size_ < getMinimumSequence s.gating_sequences_ then
    some { s with claimed := sequence }
  else none

/-- Modelled from the spec: `ClaimStrategy::serialisePublishing` (not among the sources).
"For multi-producer, a producer that claimed sequence N must not advance the shared
cursor to N until the cursor has already reached `N - batch_size`.  For single-producer
this degenerates to a direct cursor set." -/
def serialisePublishing (s : Sequencer) (sequence batch_size : Int) : Option Sequencer :=
  match s.claim_strategy_option with
  | .singleProducer => some { s with cursor_ := sequence }
  | .multiProducer =>
    if s.cursor_ = sequence - batch_size then some { s with cursor_ := sequence } else none

/-- `Sequencer::next`: `return claim_strategy_->incrementAndGet(gating_sequences_);`. -/
def next (s : Sequencer) : Option (Int × Sequencer) :=
  s.incrementAndGet

/-- `Sequencer::claim`:
`claim_strategy_->setSequence(sequence, gating_sequences_); return sequence;`. -/
def claim (s : Sequencer) (sequence : Int) : Option (Int × Sequencer) :=
  match s.setSequence sequence with
  | some s' => some (sequence, s')
  | none => none

/-- The protected `Sequencer::publish(sequence, batch_size)`:
`claim_strategy_->serialisePublishing(sequence, cursor_, batch_size);`
`wait_strategy_->signalAllWhenBlocking();`. -/
def publishBatch (s : Sequencer) (sequence batch_size : Int) : Option Sequencer :=
  s.serialisePublishing sequence batch_size

/-- `Sequencer::publish(sequence)`: `this->publish(sequence, 1);`. -/
def publish (s : Sequencer) (sequence : Int) : Option Sequencer :=
  s.publishBatch sequence 1

/-- `Sequencer::forcePublish`:
`cursor_.set(sequence); wait_strategy_->signalAllWhenBlocking();`. -/
def forcePublish (s : Sequencer) (sequence : Int) : Sequencer :=
  { s with cursor_ := sequence }

/-- The wrap bound: the cursor is ahead of no gating sequence by more than the buffer
size, which for at least one gating sequence says
`cursor - min(gating_sequences) <= buffer_size`. -/
def WrapBound (s : Sequencer) : Prop :=
  ∀ g ∈ s.gating_sequences_, s.cursor_ - g ≤ s.buffer_size_

/-- The claim bound: the last sequence claimed is ahead of every gating sequence by less
than the buffer size, which for at least one gating sequence says
`claimed - buffer_size < min(gating_sequences)`, the condition a claim waits for. -/
def ClaimBound (s : Sequencer) : Prop :=
  ∀ g ∈ s.gating_sequences_, s.claimed - g < s.buffer_size_

end Sequencer

/-! ## The no-op processor

A `NoOpEventProcessor` holds nothing but a pointer to the sequencer it follows (the ring
buffer, which is a sequencer); its state is the state of that sequencer. -/

namespace NoOpEventProcessor

/-- Reading the exposed `Sequence`, `SequencerFollowingSequence::get`:
`return following_->getCursor();`. -/
def get (following : Sequencer) : Int := following.getCursor

/-- `NoOpEventProcessor::run`: the empty body. -/
def run (following : Sequencer) : Sequencer := following

/-- `NoOpEventProcessor::halt`: the empty body. -/
def halt (following : Sequencer) : Sequencer := following

end NoOpEventProcessor

/-- An idle tick that raises, then a barrier that times out: capacity 4, idle duration 1
tick; sequences 0..2 are published and nothing more, every wait returns 2; the handler
raises the error 7 on the idle tick at sequence 3 and returns otherwise; an exception
handler is configured and returns. -/
def idleTickRaisesThenQuiet : Env Int Nat :=
  { get := fun s => s % 4
    waitFor := fun _ _ _ => .ok 2
    onStart := fun _ => .ok ()
    onEvent := fun _ s _ event => if event = none ∧ s = 3 then .error (.std 7) else .ok ()
    onShutdown := fun _ => .ok ()
    exception_handler_ := some (fun _ _ _ _ => .ok ())
    ticks := 1 }

/-! ## The barrier, as the specification describes it -/

/-- Modelled from the spec: `SequenceBarrier::waitFor` on an alerted barrier (the barrier
and the wait strategies are not among the sources).  "Once alerted, `waitFor` must fail
fast with a distinguished cancellation outcome (never silently returning a stale
availability)": whatever the history and the sequence asked for, a wait on a barrier
whose alert flag is set reports the alert. -/
def AlertedBarrierFailsFast (env : Env T E) : Prop :=
  ∀ (history : List (Call T E)) (sequence : Int),
    env.waitFor true history sequence = .error Raised.alert

/-- A barrier as the specification describes it, with sequences 0..2 published: a wait
reports the alert when the barrier is alerted and returns 2 otherwise; the handler never
raises; no idle duration. -/
def scenarioHalted : Env Int Nat :=
  { get := fun s => s % 4
    waitFor := fun alerted _ _ => if alerted then .error .alert else .ok 2
    onStart := fun _ => .ok ()
    onEvent := fun _ _ _ _ => .ok ()
    onShutdown := fun _ => .ok ()
    exception_handler_ := none
    ticks := 0 }

/-! ## Lemmas on traces -/

theorem delivered_append (l₁ l₂ : List (Call T E)) :
    delivered (l₁ ++ l₂) = delivered l₁ ++ delivered l₂ := by
  induction l₁ with
  | nil => rfl
  | cons c l ih =>
    cases c with
    | onEvent s b ev => cases ev <;> simp [delivered, ih]
    | _ => simp [delivered, ih]

theorem batch_of_lt (env : Env T E) {available next : Int} (h : available < next) :
    batch env available next = [] := by
  have h0 : (available + 1 - next).toNat = 0 := by omega
  simp [batch, h0]

theorem batch_of_le (env : Env T E) {available next : Int} (h : next ≤ available) :
    batch env available next =
      Call.onEvent next (decide (next = available)) (some (env.get next)) ::
        batch env available (next + 1) := by
  have h0 : (available + 1 - next).toNat = (available + 1 - (next + 1)).toNat + 1 := by omega
  unfold batch
  rw [h0, List.range_succ_eq_map]
  simp only [List.map_cons, List.map_map, Nat.cast_zero, add_zero]
  congr 1
  apply List.map_congr_left
  intro i _
  have h1 : next + ((Nat.succ i : Nat) : Int) = next + 1 + (i : Int) := by
    push_cast; ring
  simp only [Function.comp, h1]

theorem delivered_batch (env : Env T E) (available next : Int) :
    delivered (batch env available next) =
      (List.range (available + 1 - next).toNat).map fun (i : Nat) => next + (i : Int) := by
  unfold batch
  induction List.range (available + 1 - next).toNat with
  | nil => rfl
  | cons i l ih => simp [delivered, ih]

/-! ## The inner loop -/

/-- The inner loop as the source writes it: one unfolding of `while`. -/
theorem deliver_unfold (env : Env T E) (available_sequence : Int) (f : Frame T E) :
    deliver env available_sequence f =
      if f.next_sequence ≤ available_sequence then
        match env.onEvent f.trace f.next_sequence
            (decide (f.next_sequence = available_sequence)) (some (env.get f.next_sequence)) with
        | .error r =>
          (some r, { f with
            event := some (env.get f.next_sequence),
            trace := f.trace ++ [Call.onEvent f.next_sequence
              (decide (f.next_sequence = available_sequence)) (some (env.get f.next_sequence))] })
        | .ok _ =>
          deliver env available_sequence { f with
            event := some (env.get f.next_sequence),
            next_sequence := f.next_sequence + 1,
            trace := f.trace ++ [Call.onEvent f.next_sequence
              (decide (f.next_sequence = available_sequence)) (some (env.get f.next_sequence))] }
      else (none, f) := by
  unfold deliver
  by_cases h : f.next_sequence ≤ available_sequence
  · have h0 : (available_sequence + 1 - f.next_sequence).toNat =
        (available_sequence + 1 - (f.next_sequence + 1)).toNat + 1 := by omega
    rw [h0, deliverLoop]
  · have h0 : (available_sequence + 1 - f.next_sequence).toNat = 0 := by omega
    rw [h0, deliverLoop]
    simp only [h, if_false]

/-- An inner loop that no exception leaves has made exactly the calls of `batch`, has left
the processor alone and has moved `next_sequence` past `available_sequence`. -/
theorem deliverLoop_none (env : Env T E) (a : Int) :
    ∀ (n : Nat) (f f' : Frame T E), deliverLoop env a n f = (none, f') →
      (a + 1 - f.next_sequence).toNat ≤ n →
      f'.trace = f.trace ++ batch env a f.next_sequence ∧ f'.proc = f.proc ∧
        f'.next_sequence = max f.next_sequence (a + 1) := by
  intro n
  induction n with
  | zero =>
    intro f f' h hn
    simp only [deliverLoop, Prod.mk.injEq, true_and] at h
    subst h
    have hlt : a < f.next_sequence := by omega
    refine ⟨by simp [batch_of_lt env hlt], rfl, ?_⟩
    rw [max_eq_left (by omega)]
  | succ n ih =>
    intro f f' h hn
    rw [deliverLoop] at h
    by_cases hle : f.next_sequence ≤ a
    · simp only [hle, if_true] at h
      cases hev : env.onEvent f.trace f.next_sequence (decide (f.next_sequence = a))
          (some (env.get f.next_sequence)) with
      | error r => simp [hev] at h
      | ok u =>
        simp only [hev] at h
        obtain ⟨h1, h2, h3⟩ := ih _ _ h (by simp only; omega)
        refine ⟨?_, h2, ?_⟩
        · rw [h1, batch_of_le env hle]; simp
        · rw [h3]; simp only
          rw [max_eq_right (by omega), max_eq_right (by omega)]
    · simp only [hle, if_false, Prod.mk.injEq, true_and] at h
      subst h
      have hlt : a < f.next_sequence := by omega
      refine ⟨by simp [batch_of_lt env hlt], rfl, ?_⟩
      rw [max_eq_left (by omega)]

theorem Extends.refl (f : Frame T E) : Extends f f :=
  ⟨le_refl _, [], by simp, by simp, by simp [delivered]⟩

theorem Extends.trans {f f' f'' : Frame T E} (h₁ : Extends f f') (h₂ : Extends f' f'') :
    Extends f f'' := by
  obtain ⟨hn₁, l₁, ht₁, hc₁, hd₁⟩ := h₁
  obtain ⟨hn₂, l₂, ht₂, hc₂, hd₂⟩ := h₂
  refine ⟨le_trans hn₁ hn₂, l₁ ++ l₂, by simp [ht₂, ht₁], ?_, ?_⟩
  · intro c hc
    rcases List.mem_append.1 hc with hc | hc
    · exact hc₁ c hc
    · exact hc₂ c hc
  · intro s hs
    rw [delivered_append] at hs
    rcases List.mem_append.1 hs with hs | hs
    · exact hd₁ s hs
    · exact le_trans hn₁ (hd₂ s hs)

/-- One more action, which is not the delivery of a slot below `next_sequence`. -/
theorem Extends.step {f f' : Frame T E} (c : Call T E)
    (hn : f.next_sequence ≤ f'.next_sequence) (ht : f'.trace = f.trace ++ [c])
    (h₁ : c ≠ Call.onStart) (h₂ : c ≠ Call.onShutdown)
    (hd : ∀ s ∈ delivered [c], f.next_sequence ≤ s) : Extends f f' := by
  refine ⟨hn, [c], ht, ?_, hd⟩
  intro c' hc'
  rw [List.mem_singleton] at hc'
  subst hc'
  exact ⟨h₁, h₂⟩

theorem Extends.skip (f : Frame T E) : Extends f (skip f) :=
  Extends.step (Call.set f.next_sequence) (by simp [Disruptor.skip])
    (by simp [Disruptor.skip]) (by simp) (by simp) (by simp [delivered])

/-- Whatever way the inner loop ends, it leaves the processor alone and the frame it ends
in comes after the frame it started in; the sequences delivered stay below
`next_sequence` when no exception leaves the loop, and at or below it when one does. -/
theorem deliverLoop_spec (env : Env T E) (a : Int) :
    ∀ (n : Nat) (f f' : Frame T E) (r : Option (Raised E)), deliverLoop env a n f = (r, f') →
      f'.proc = f.proc ∧ Extends f f' ∧
      ((∀ s ∈ delivered f.trace, s < f.next_sequence) →
        (∀ s ∈ delivered f'.trace, s ≤ f'.next_sequence) ∧
        (r = none → ∀ s ∈ delivered f'.trace, s < f'.next_sequence)) := by
  intro n
  induction n with
  | zero =>
    intro f f' r h
    simp only [deliverLoop, Prod.mk.injEq] at h
    obtain ⟨h1, h2⟩ := h
    subst h1 h2
    exact ⟨rfl, Extends.refl _, fun hd => ⟨fun s hs => le_of_lt (hd s hs), fun _ => hd⟩⟩
  | succ n ih =>
    intro f f' r h
    rw [deliverLoop] at h
    by_cases hle : f.next_sequence ≤ a
    · simp only [hle, if_true] at h
      have hstep : ∀ (g : Frame T E), f.next_sequence ≤ g.next_sequence →
          g.trace = f.trace ++ [Call.onEvent f.next_sequence (decide (f.next_sequence = a))
            (some (env.get f.next_sequence))] → Extends f g := fun g hn ht =>
        Extends.step _ hn ht (by simp) (by simp) (by simp [delivered])
      cases hev : env.onEvent f.trace f.next_sequence (decide (f.next_sequence = a))
          (some (env.get f.next_sequence)) with
      | error e =>
        simp only [hev, Prod.mk.injEq] at h
        obtain ⟨h1, h2⟩ := h
        subst h1 h2
        refine ⟨rfl, hstep _ (le_refl _) rfl, fun hd => ⟨?_, by simp⟩⟩
        intro s hs
        simp only [delivered_append, delivered, List.mem_append, List.mem_singleton] at hs
        rcases hs with hs | hs
        · exact le_of_lt (hd s hs)
        · exact le_of_eq hs
      | ok u =>
        simp only [hev] at h
        obtain ⟨h1, h2, h4⟩ := ih _ _ _ h
        refine ⟨h1, Extends.trans (hstep _ (by simp) rfl) h2, fun hd => h4 ?_⟩
        intro s hs
        simp only [delivered_append, delivered, List.mem_append, List.mem_singleton] at hs
        rcases hs with hs | hs
        · have := hd s hs
          simp only; omega
        · simp only; omega
    · simp only [hle, if_false, Prod.mk.injEq] at h
      obtain ⟨h1, h2⟩ := h
      subst h1 h2
      exact ⟨rfl, Extends.refl _, fun hd => ⟨fun s hs => le_of_lt (hd s hs), fun _ => hd⟩⟩

/-- An inner loop that an exception leaves: the last action is the `onEvent` call that
raised it, made for the sequence `next_sequence` stands at, which is at most the
available one, with the slot of that sequence, and `event` points at that slot. -/
theorem deliverLoop_raise (env : Env T E) (a : Int) :
    ∀ (n : Nat) (f f' : Frame T E) (r : Raised E), deliverLoop env a n f = (some r, f') →
      f'.next_sequence ≤ a ∧ f'.event = some (env.get f'.next_sequence) ∧
      ∃ before, f'.trace = before ++ [Call.onEvent f'.next_sequence
          (decide (f'.next_sequence = a)) (some (env.get f'.next_sequence))] ∧
        env.onEvent before f'.next_sequence (decide (f'.next_sequence = a))
          (some (env.get f'.next_sequence)) = .error r := by
  intro n
  induction n with
  | zero =>
    intro f f' r h
    simp [deliverLoop] at h
  | succ n ih =>
    intro f f' r h
    rw [deliverLoop] at h
    by_cases hle : f.next_sequence ≤ a
    · simp only [hle, if_true] at h
      cases hev : env.onEvent f.trace f.next_sequence (decide (f.next_sequence = a))
          (some (env.get f.next_sequence)) with
      | error e =>
        simp only [hev, Prod.mk.injEq, Option.some.injEq] at h
        obtain ⟨h1, h2⟩ := h
        subst h1 h2
        exact ⟨hle, rfl, f.trace, rfl, hev⟩
      | ok u =>
        simp only [hev] at h
        exact ih _ _ _ h
    · simp [hle] at h

/-! ## One pass of the loop -/

/-- The `catch` clauses never end in a commit, and the frame they end in comes after the
frame they started in; when they recover, the sequences delivered are below the new
`next_sequence`, and the processor's `Sequence` is the new `next_sequence - 1`; on an
alert nothing changes. -/
theorem catchBlock_spec (env : Env T E) (r : Raised E) (f f' : Frame T E) (st : Step E)
    (h : catchBlock env r f = (st, f')) :
    st ≠ Step.committed ∧ Extends f f' ∧
    (st = Step.recovered →
      f'.proc.sequence_ = f'.next_sequence - 1 ∧
      ((∀ s ∈ delivered f.trace, s ≤ f.next_sequence) →
        ∀ s ∈ delivered f'.trace, s < f'.next_sequence)) ∧
    (st = Step.alerted → f' = f) := by
  unfold catchBlock at h
  split at h
  · simp only [Prod.mk.injEq] at h
    obtain ⟨rfl, rfl⟩ := h
    exact ⟨by simp, Extends.refl _, by simp, by simp⟩
  · simp only [Prod.mk.injEq] at h
    obtain ⟨rfl, rfl⟩ := h
    exact ⟨by simp, Extends.refl _, by simp, by simp⟩
  · rename_i e
    split at h
    · simp only [Prod.mk.injEq] at h
      obtain ⟨rfl, rfl⟩ := h
      refine ⟨by simp, Extends.skip f, fun _ => ⟨by simp [skip], ?_⟩, by simp⟩
      intro hd s hs
      simp only [skip, delivered_append, delivered, List.append_nil] at hs
      have := hd s hs
      simp only [skip]; omega
    · have hstep : Extends f
          { f with trace := f.trace ++ [Call.handle e f.next_sequence f.event] } :=
        Extends.step _ (le_refl _) rfl (by simp) (by simp) (by simp [delivered])
      split at h
      · simp only [Prod.mk.injEq] at h
        obtain ⟨rfl, rfl⟩ := h
        exact ⟨by simp, hstep, by simp, by simp⟩
      · simp only [Prod.mk.injEq] at h
        obtain ⟨rfl, rfl⟩ := h
        refine ⟨by simp, Extends.trans hstep (Extends.skip _),
          fun _ => ⟨by simp [skip], ?_⟩, by simp⟩
        intro hd s hs
        simp only [skip, delivered_append, delivered, List.append_nil] at hs
        have := hd s hs
        simp only [skip]; omega

/-- The frame in which the part of the `try` block after the inner loop ends comes after
the frame it started in; when the pass goes on, the sequences delivered are below the new
`next_sequence`, and the processor's `Sequence` is the new `next_sequence - 1`; on an
alert the processor is left alone. -/
theorem afterBatch_spec (env : Env T E) (a : Int) (f f' : Frame T E) (st : Step E)
    (h : afterBatch env a f = (st, f')) :
    Extends f f' ∧
    (st = Step.committed ∨ st = Step.recovered →
      f'.proc.sequence_ = f'.next_sequence - 1 ∧
      ((∀ s ∈ delivered f.trace, s < f.next_sequence) →
        ∀ s ∈ delivered f'.trace, s < f'.next_sequence)) ∧
    (st = Step.alerted → f'.proc = f.proc) := by
  have hset : ∀ (g g' : Frame T E), g.next_sequence ≤ g'.next_sequence →
      g'.trace = g.trace ++ [Call.set (g.next_sequence - 1)] → Extends g g' :=
    fun g g' hn ht => Extends.step _ hn ht (by simp) (by simp) (by simp [delivered])
  unfold afterBatch at h
  split at h
  · have htick : Extends f { f with trace := f.trace ++
        [Call.onEvent f.next_sequence (decide (f.next_sequence = a)) none] } :=
      Extends.step _ (le_refl _) rfl (by simp) (by simp) (by simp [delivered])
    simp only at h
    split at h
    · rename_i r _
      obtain ⟨hn, hx, h3, h4⟩ := catchBlock_spec env r _ _ _ h
      refine ⟨Extends.trans htick hx, ?_, ?_⟩
      · intro hst
        rcases hst with hst | hst
        · exact absurd hst hn
        · refine ⟨(h3 hst).1, fun hd => (h3 hst).2 ?_⟩
          intro s hs
          simp only [delivered_append, delivered, List.append_nil] at hs
          exact le_of_lt (hd s hs)
      · intro hst
        rw [h4 hst]
    · simp only [commit, Prod.mk.injEq] at h
      obtain ⟨rfl, rfl⟩ := h
      refine ⟨Extends.trans htick (hset _ _ (le_refl _) rfl), fun _ => ⟨rfl, ?_⟩, by simp⟩
      intro hd s hs
      simp only [delivered_append, delivered, List.append_nil] at hs
      exact hd s hs
  · simp only [commit, Prod.mk.injEq] at h
    obtain ⟨rfl, rfl⟩ := h
    refine ⟨hset _ _ (le_refl _) rfl, fun _ => ⟨rfl, ?_⟩, by simp⟩
    intro hd s hs
    simp only [delivered_append, delivered, List.append_nil] at hs
    exact hd s hs

/-- The frame in which a pass of the loop ends comes after the frame it started in; when
the loop goes on after the pass, the sequences delivered are below the new
`next_sequence` and the processor's `Sequence` is the new `next_sequence - 1`; when the
pass ends in `break`, the processor is as it was. -/
theorem iteration_spec (env : Env T E) (f f' : Frame T E) (st : Step E)
    (h : iteration env f = (st, f')) :
    Extends f f' ∧
    (st = Step.committed ∨ st = Step.recovered →
      f'.proc.sequence_ = f'.next_sequence - 1 ∧
      ((∀ s ∈ delivered f.trace, s < f.next_sequence) →
        ∀ s ∈ delivered f'.trace, s < f'.next_sequence)) ∧
    (st = Step.alerted → f'.proc = f.proc) := by
  have hwait : Extends f { f with trace := f.trace ++ [Call.waitFor f.next_sequence] } :=
    Extends.step _ (le_refl _) rfl (by simp) (by simp) (by simp [delivered])
  unfold iteration at h
  simp only at h
  split at h
  · rename_i r _
    obtain ⟨hn, hx, h3, h4⟩ := catchBlock_spec env r _ _ _ h
    refine ⟨Extends.trans hwait hx, ?_, ?_⟩
    · intro hst
      rcases hst with hst | hst
      · exact absurd hst hn
      · refine ⟨(h3 hst).1, fun hd => (h3 hst).2 ?_⟩
        intro s hs
        simp only [delivered_append, delivered, List.append_nil] at hs
        exact le_of_lt (hd s hs)
    · intro hst
      rw [h4 hst]
  · rename_i a _
    split at h
    · rename_i r f1 hdl
      obtain ⟨hp, hx1, hd1⟩ := deliverLoop_spec env a _ _ _ _ hdl
      obtain ⟨hn, hx, h3, h4⟩ := catchBlock_spec env r _ _ _ h
      refine ⟨Extends.trans hwait (Extends.trans hx1 hx), ?_, ?_⟩
      · intro hst
        rcases hst with hst | hst
        · exact absurd hst hn
        · refine ⟨(h3 hst).1, fun hd => (h3 hst).2 (hd1 ?_).1⟩
          intro s hs
          simp only [delivered_append, delivered, List.append_nil] at hs
          exact hd s hs
      · intro hst
        rw [h4 hst, hp]
    · rename_i f1 hdl
      obtain ⟨hp, hx1, hd1⟩ := deliverLoop_spec env a _ _ _ _ hdl
      obtain ⟨hx, h3, h4⟩ := afterBatch_spec env a _ _ _ h
      refine ⟨Extends.trans hwait (Extends.trans hx1 hx), ?_, ?_⟩
      · intro hst
        refine ⟨(h3 hst).1, fun hd => (h3 hst).2 ((hd1 ?_).2 rfl)⟩
        intro s hs
        simp only [delivered_append, delivered, List.append_nil] at hs
        exact hd s hs
      · intro hst
        rw [h4 hst, hp]

/-- The first action of a pass of the loop is the wait for `next_sequence`. -/
theorem iteration_wait (env : Env T E) (f f' : Frame T E) (st : Step E)
    (h : iteration env f = (st, f')) :
    Extends { f with trace := f.trace ++ [Call.waitFor f.next_sequence] } f' := by
  unfold iteration at h
  simp only at h
  split at h
  · rename_i r _
    exact (catchBlock_spec env r _ _ _ h).2.1
  · rename_i a _
    split at h
    · rename_i r f1 hdl
      exact Extends.trans (deliverLoop_spec env a _ _ _ _ hdl).2.1
        (catchBlock_spec env r _ _ _ h).2.1
    · rename_i f1 hdl
      exact Extends.trans (deliverLoop_spec env a _ _ _ _ hdl).2.1
        (afterBatch_spec env a _ _ _ h).1

/-- A pass of the loop in which the wait returns `a` and which ends in a commit: its
trace, its processor and its `next_sequence`. -/
theorem iteration_committed (env : Env T E) (f f' : Frame T E) (a : Int)
    (hw : env.waitFor f.proc.alerted f.trace f.next_sequence = .ok a)
    (h : iteration env f = (Step.committed, f')) :
    f'.trace = f.trace ++ Call.waitFor f.next_sequence ::
      (batch env a f.next_sequence ++ idleTick env (max f.next_sequence (a + 1)) ++
        [Call.set (max f.next_sequence (a + 1) - 1)]) ∧
    f'.proc = { f.proc with sequence_ := max f.next_sequence (a + 1) - 1 } ∧
    f'.next_sequence = max f.next_sequence (a + 1) := by
  unfold iteration at h
  simp only [hw] at h
  split at h
  · rename_i r f1 hdl
    exact absurd rfl (catchBlock_spec env r _ _ _ h).1
  · rename_i f1 hdl
    obtain ⟨h1, h2, h3⟩ := deliverLoop_none env a _ _ _ hdl (le_refl _)
    simp only at h1 h2 h3
    have hne : decide (f1.next_sequence = a) = false := by
      rw [h3]
      have : max f.next_sequence (a + 1) ≠ a := by
        have := le_max_right f.next_sequence (a + 1)
        omega
      simp [this]
    unfold afterBatch at h
    split at h
    · rename_i ht
      simp only at h
      split at h
      · rename_i r _
        exact absurd rfl (catchBlock_spec env r _ _ _ h).1
      · simp only [commit, Prod.mk.injEq, true_and] at h
        subst h
        have hne' := hne
        rw [h3] at hne'
        simp [hne, hne', h1, h2, h3, idleTick, ht]
    · rename_i ht
      simp only [commit, Prod.mk.injEq, true_and] at h
      subst h
      simp only [h1, h2, h3, idleTick, ht, if_false]
      simp

/-- A pass in which the wait returns ends in the commit unless a handler call raises: when
it does not end in the commit, some `onEvent` call of the pass has raised. -/
theorem raise_of_not_committed (env : Env T E) (f : Frame T E) (a : Int)
    (hw : env.waitFor f.proc.alerted f.trace f.next_sequence = .ok a)
    (hn : (iteration env f).1 ≠ Step.committed) :
    ∃ before s b ev r rest,
      (iteration env f).2.trace = before ++ Call.onEvent s b ev :: rest ∧
      env.onEvent before s b ev = .error r := by
  unfold iteration at hn ⊢
  simp only [hw] at hn ⊢
  split
  · rename_i r f1 hdl
    obtain ⟨_, _, before, hb, hr⟩ := deliverLoop_raise env a _ _ _ _ hdl
    obtain ⟨_, l, hl, _, _⟩ := (catchBlock_spec env r f1 _ _ Prod.mk.eta.symm).2.1
    exact ⟨before, _, _, _, r, l, by rw [hl, hb]; simp, hr⟩
  · rename_i f1 hdl
    rw [hdl] at hn
    simp only at hn
    unfold afterBatch at hn ⊢
    split
    · rename_i ht
      simp only [ht, if_true] at hn
      simp only
      split
      · rename_i r hr
        obtain ⟨_, l, hl, _, _⟩ := (catchBlock_spec env r _ _ _ Prod.mk.eta.symm).2.1
        exact ⟨f1.trace, _, _, _, r, l, by rw [hl]; simp, hr⟩
      · rename_i u hr
        rw [hr] at hn
        simp [commit, ht] at hn
    · rename_i ht
      simp only [ht, if_false] at hn
      simp [commit] at hn

/-- A pass in which the wait returns and no `onEvent` call can raise ends in the commit. -/
theorem committed_of_no_raise (env : Env T E) (f : Frame T E) (a : Int)
    (hw : env.waitFor f.proc.alerted f.trace f.next_sequence = .ok a)
    (hok : ∀ h s b ev, env.onEvent h s b ev = .ok ()) :
    (iteration env f).1 = Step.committed := by
  by_contra hn
  obtain ⟨before, s, b, ev, r, _, _, hr⟩ := raise_of_not_committed env f a hw hn
  rw [hok] at hr
  exact absurd hr (by simp)

/-! ## The loop -/

theorem delivered_idleTick (env : Env T E) (s : Int) :
    delivered (idleTick env s) = [] := by
  unfold idleTick
  split <;> rfl

/-- At the head of every pass after the first, the processor's `Sequence` is
`next_sequence - 1`; the same holds at the head of the first when it holds on entry. -/
theorem loopHead_sequence (env : Env T E) :
    ∀ (k : Nat) (f f' : Frame T E), loopHead env k f = some f' →
      f.proc.sequence_ = f.next_sequence - 1 → f'.proc.sequence_ = f'.next_sequence - 1 := by
  intro k
  induction k with
  | zero =>
    intro f f' h hf
    simp only [loopHead, Option.some.injEq] at h
    subst h
    exact hf
  | succ k ih =>
    intro f f' h _
    rw [loopHead] at h
    split at h
    · rename_i f1 hit
      exact ih _ _ h ((iteration_spec env _ _ _ hit).2.1 (Or.inl rfl)).1
    · rename_i f1 hit
      exact ih _ _ h ((iteration_spec env _ _ _ hit).2.1 (Or.inr rfl)).1
    · exact absurd h (by simp)
    · exact absurd h (by simp)

/-- At the head of every pass, every sequence delivered so far is below `next_sequence`,
when that holds on entry. -/
theorem loopHead_delivered (env : Env T E) :
    ∀ (k : Nat) (f f' : Frame T E), loopHead env k f = some f' →
      (∀ s ∈ delivered f.trace, s < f.next_sequence) →
      ∀ s ∈ delivered f'.trace, s < f'.next_sequence := by
  intro k
  induction k with
  | zero =>
    intro f f' h hf
    simp only [loopHead, Option.some.injEq] at h
    subst h
    exact hf
  | succ k ih =>
    intro f f' h hf
    rw [loopHead] at h
    split at h
    · rename_i f1 hit
      exact ih _ _ h (((iteration_spec env _ _ _ hit).2.1 (Or.inl rfl)).2 hf)
    · rename_i f1 hit
      exact ih _ _ h (((iteration_spec env _ _ _ hit).2.1 (Or.inr rfl)).2 hf)
    · exact absurd h (by simp)
    · exact absurd h (by simp)

/-- The loop that has reached the head of pass `k + 1` goes on from there. -/
theorem loop_of_loopHead (env : Env T E) (n : Nat) :
    ∀ (k : Nat) (f f' : Frame T E), loopHead env k f = some f' →
      loop env (k + n) f = loop env n f' := by
  intro k
  induction k with
  | zero =>
    intro f f' h
    simp only [loopHead, Option.some.injEq] at h
    subst h
    simp
  | succ k ih =>
    intro f f' h
    rw [loopHead] at h
    have hk : k + 1 + n = (k + n) + 1 := by omega
    rw [hk, loop]
    split at h
    · exact ih _ _ h
    · exact ih _ _ h
    · exact absurd h (by simp)
    · exact absurd h (by simp)

/-- The loop is still going when its budget of `n` passes is used up exactly when it gets
to the head of pass `n + 1`, and the frame is the same. -/
theorem loop_looping_iff (env : Env T E) :
    ∀ (n : Nat) (f f' : Frame T E),
      loop env n f = (LoopExit.looping, f') ↔ loopHead env n f = some f' := by
  intro n
  induction n with
  | zero =>
    intro f f'
    simp [loop, loopHead]
  | succ n ih =>
    intro f f'
    rw [loop, loopHead]
    split <;> simp [ih]

/-- The frame in which the loop is left, or in which its budget is used up, comes after
the frame in which it was entered. -/
theorem loop_spec (env : Env T E) :
    ∀ (n : Nat) (f f' : Frame T E) (x : LoopExit E), loop env n f = (x, f') →
      Extends f f' := by
  intro n
  induction n with
  | zero =>
    intro f f' x h
    simp only [loop, Prod.mk.injEq] at h
    obtain ⟨_, rfl⟩ := h
    exact Extends.refl _
  | succ n ih =>
    intro f f' x h
    rw [loop] at h
    split at h
    · rename_i f1 hit
      exact Extends.trans (iteration_spec env _ _ _ hit).1 (ih _ _ _ h)
    · rename_i f1 hit
      exact Extends.trans (iteration_spec env _ _ _ hit).1 (ih _ _ _ h)
    · rename_i f1 hit
      simp only [Prod.mk.injEq] at h
      obtain ⟨_, rfl⟩ := h
      exact (iteration_spec env _ _ _ hit).1
    · rename_i r f1 hit
      simp only [Prod.mk.injEq] at h
      obtain ⟨_, rfl⟩ := h
      exact (iteration_spec env _ _ _ hit).1

/-! ## The claims about a pass of the loop -/

/-- C1.  In a pass of the loop of `run` in which `waitFor(next_sequence)` returns
`a ≥ next_sequence` and no handler call raises (the pass ends in the commit), the actions
of the pass are: the wait; then one `onEvent` call for each of the sequences
`next_sequence, next_sequence + 1, ..., a`, in increasing order, each with the slot
`ring_buffer.get` gives for that sequence and with `isEndOfBatch` true exactly when the
sequence is `a`; then the idle tick, if one is configured; then the commit of `a`. -/
theorem iteration_delivers_batch (env : Env T E) (f : Frame T E) (a : Int)
    (hw : env.waitFor f.proc.alerted f.trace f.next_sequence = .ok a)
    (hle : f.next_sequence ≤ a)
    (hc : (iteration env f).1 = Step.committed) :
    (iteration env f).2.trace =
      f.trace ++ Call.waitFor f.next_sequence ::
        ((List.range (a + 1 - f.next_sequence).toNat).map (fun (i : Nat) =>
            Call.onEvent (f.next_sequence + (i : Int))
              (decide (f.next_sequence + (i : Int) = a))
              (some (env.get (f.next_sequence + (i : Int)))))
          ++ idleTick env (a + 1) ++ [Call.set a]) := by
  have h : iteration env f = (Step.committed, (iteration env f).2) := by
    rw [← hc]
  have h1 := (iteration_committed env f _ a hw h).1
  rw [max_eq_right (by omega)] at h1
  simpa [batch] using h1

/-- Scenario A of the specification: the batch 0..2 is delivered as 0, 1, 2, and the flag
is true on 2 only. -/
theorem iteration_delivers_batch_witness :
    (iteration scenarioA (enter (store (construct (-1) false) true) [Call.onStart])).2.trace =
      [Call.onStart, Call.waitFor 0, Call.onEvent 0 false (some 0),
        Call.onEvent 1 false (some 1), Call.onEvent 2 true (some 2), Call.set 2] :=
  iteration_delivers_batch scenarioA
    (enter (store (construct (-1) false) true) [Call.onStart]) 2 rfl (by decide) rfl

/-- What a pass that ends in the commit does to the `Sequence`.  Take any pass of the loop
of a `run` entered on the processor `p` (so any frame `f` at the head of a pass), in which
`waitFor` returns `a` and no handler call raises (the pass ends in the commit).  If
`a ≥ next_sequence`, the processor's `Sequence` after the pass is `a`, and `a` is the
highest sequence delivered to the handler so far.  If `a < next_sequence` (no new data),
the `Sequence` is left at its previous value, which is `next_sequence - 1`, and the pass
has delivered no slot. -/
theorem sequence_after_committed_iteration (env : Env T E) (p : BatchEventProcessor)
    (tr : List (Call T E)) (k : Nat) (f : Frame T E) (a : Int)
    (htr : ∀ s ∈ delivered tr, s ≤ p.sequence_)
    (hk : loopHead env k (enter p tr) = some f)
    (hw : env.waitFor f.proc.alerted f.trace f.next_sequence = .ok a)
    (hc : (iteration env f).1 = Step.committed) :
    (f.next_sequence ≤ a →
      (iteration env f).2.proc.sequence_ = a ∧
      a ∈ delivered (iteration env f).2.trace ∧
      ∀ s ∈ delivered (iteration env f).2.trace, s ≤ a) ∧
    (a < f.next_sequence →
      (iteration env f).2.proc.sequence_ = f.proc.sequence_ ∧
      f.proc.sequence_ = f.next_sequence - 1 ∧
      delivered (iteration env f).2.trace = delivered f.trace) := by
  have hseq : f.proc.sequence_ = f.next_sequence - 1 :=
    loopHead_sequence env k _ _ hk (by simp [enter])
  have hdel : ∀ s ∈ delivered f.trace, s < f.next_sequence := by
    apply loopHead_delivered env k _ _ hk
    intro s hs
    have := htr s hs
    simp only [enter] at hs ⊢
    omega
  have h : iteration env f = (Step.committed, (iteration env f).2) := by
    rw [← hc]
  obtain ⟨h1, h2, _⟩ := iteration_committed env f _ a hw h
  constructor
  · intro hle
    rw [max_eq_right (by omega)] at h1 h2
    refine ⟨by rw [h2]; simp, ?_, ?_⟩
    · rw [h1]
      simp only [delivered_append, delivered, delivered_batch, delivered_idleTick,
        List.mem_append, List.mem_map, List.mem_range, List.append_nil]
      refine Or.inr ⟨(a - f.next_sequence).toNat, by omega, by omega⟩
    · intro s hs
      rw [h1] at hs
      simp only [delivered_append, delivered, delivered_batch, delivered_idleTick,
        List.mem_append, List.mem_map, List.mem_range, List.append_nil] at hs
      rcases hs with hs | ⟨i, hi, rfl⟩
      · have := hdel s hs
        omega
      · omega
  · intro hlt
    rw [max_eq_left (by omega)] at h1 h2
    refine ⟨by rw [h2]; simp [hseq], hseq, ?_⟩
    rw [h1, batch_of_lt env hlt]
    simp [delivered_append, delivered, delivered_idleTick]

/-- With sequences 0..2 published and a barrier that times out: the first pass of a run
entered at -1 commits 2, and the second pass, which finds no new data, leaves 2. -/
theorem sequence_after_committed_iteration_witness :
    (iteration scenarioIdle (enter (store (construct (-1) false) true) [])).2.proc.sequence_ = 2 ∧
    (iteration scenarioIdle
      { proc := { running_ := true, sequence_ := 2, alerted := false },
        next_sequence := 3, event := some 2,
        trace := [Call.waitFor 0, Call.onEvent 0 false (some 0), Call.onEvent 1 false (some 1),
          Call.onEvent 2 true (some 2), Call.onEvent 3 false none, Call.set 2]
      }).2.proc.sequence_ = 2 :=
  ⟨((sequence_after_committed_iteration scenarioIdle (store (construct (-1) false) true) [] 0
      (enter (store (construct (-1) false) true) []) 2
      (by simp [delivered]) (by rfl) (by rfl) (by rfl)).1 (by decide)).1,
   ((sequence_after_committed_iteration scenarioIdle (store (construct (-1) false) true) [] 1
      { proc := { running_ := true, sequence_ := 2, alerted := false },
        next_sequence := 3, event := some 2,
        trace := [Call.waitFor 0, Call.onEvent 0 false (some 0), Call.onEvent 1 false (some 1),
          Call.onEvent 2 true (some 2), Call.onEvent 3 false none, Call.set 2] } 2
      (by simp [delivered]) (by rfl) (by rfl) (by rfl)).2 (by decide)).1⟩

/-- C2, at the input where the code departs from it.  Run entered at -1 with sequences
0..2 published and an idle duration that is not zero.  In the first pass the slots of 0,
1, 2 are delivered and the idle tick at 3 raises, so that the `catch` block sets the
`Sequence` to 3.  The second pass starts at a loop head reached by the run; its wait for
4 returns 2 (no new data) and none of its handler calls raises, so it ends in the
commit.  After it the `Sequence` is 3, its previous value `next_sequence - 1`, while the
slots delivered so far are those of 0, 1, 2: the `Sequence` is not the highest sequence
delivered to the handler. -/
theorem sequence_above_delivered_after_quiet_pass :
    loopHead idleTickRaisesThenQuiet 1
        (enter (store (construct (-1) false) true) [Call.onStart]) =
      some { proc := { running_ := true, sequence_ := 3, alerted := false },
             next_sequence := 4, event := some 2,
             trace := [Call.onStart, Call.waitFor 0, Call.onEvent 0 false (some 0),
               Call.onEvent 1 false (some 1), Call.onEvent 2 true (some 2),
               Call.onEvent 3 false none, Call.handle 7 3 (some 2), Call.set 3] } ∧
    iteration idleTickRaisesThenQuiet
        { proc := { running_ := true, sequence_ := 3, alerted := false },
          next_sequence := 4, event := some 2,
          trace := [Call.onStart, Call.waitFor 0, Call.onEvent 0 false (some 0),
            Call.onEvent 1 false (some 1), Call.onEvent 2 true (some 2),
            Call.onEvent 3 false none, Call.handle 7 3 (some 2), Call.set 3] } =
      (Step.committed,
        { proc := { running_ := true, sequence_ := 3, alerted := false },
          next_sequence := 4, event := some 2,
          trace := [Call.onStart, Call.waitFor 0, Call.onEvent 0 false (some 0),
            Call.onEvent 1 false (some 1), Call.onEvent 2 true (some 2),
            Call.onEvent 3 false none, Call.handle 7 3 (some 2), Call.set 3,
            Call.waitFor 4, Call.onEvent 4 false none, Call.set 3] }) ∧
    run idleTickRaisesThenQuiet 2 (construct (-1) false) [] =
      (RunResult.looping, { running_ := true, sequence_ := 3, alerted := false },
        [Call.onStart, Call.waitFor 0, Call.onEvent 0 false (some 0),
          Call.onEvent 1 false (some 1), Call.onEvent 2 true (some 2),
          Call.onEvent 3 false none, Call.handle 7 3 (some 2), Call.set 3,
          Call.waitFor 4, Call.onEvent 4 false none, Call.set 3]) ∧
    delivered (run idleTickRaisesThenQuiet 2 (construct (-1) false) []).2.2 = [0, 1, 2] ∧
    (run idleTickRaisesThenQuiet 2 (construct (-1) false) []).2.1.sequence_ ∉
      delivered (run idleTickRaisesThenQuiet 2 (construct (-1) false) []).2.2 :=
  ⟨by rfl, by rfl, by rfl, by rfl, by decide⟩

/-! ## The claims about recovery from a raise -/

/-- C3, at the input where the code departs from it.  Run entered at -1, sequences 0..2
published, idle duration not zero: the slots of 0, 1, 2 are delivered, then the idle tick
`onEvent(3, false, NULL)` raises.  The `catch` block sets the processor's `Sequence` to 3,
while the highest sequence whose slot has been passed to `onEvent` is 2. -/
theorem commit_exceeds_delivered_after_idle_tick_raise :
    run idleTickRaises 1 (construct (-1) false) [] =
      (RunResult.looping, { running_ := true, sequence_ := 3, alerted := false },
        [Call.onStart, Call.waitFor 0, Call.onEvent 0 false (some 0),
          Call.onEvent 1 false (some 1), Call.onEvent 2 true (some 2),
          Call.onEvent 3 false none, Call.handle 7 3 (some 2), Call.set 3]) ∧
    delivered (run idleTickRaises 1 (construct (-1) false) []).2.2 = [0, 1, 2] ∧
    ¬ (run idleTickRaises 1 (construct (-1) false) []).2.1.sequence_ ≤ 2 :=
  ⟨by rfl, by rfl, by decide⟩

/-- C4, at the input where the code departs from it.  The idle tick is an `onEvent` call
as well.  In the pass in which the idle tick `onEvent(3, false, NULL)` raises the error 7,
the exception handler is called once, with the error 7 and the sequence 3, but with the
slot of sequence 2, the last one fetched, and not with the null event that was passed to
the failing call. -/
theorem handler_gets_stale_event_after_idle_tick_raise :
    iteration idleTickRaises (enter (store (construct (-1) false) true) [Call.onStart]) =
      (Step.recovered,
        { proc := { running_ := true, sequence_ := 3, alerted := false },
          next_sequence := 4, event := some 2,
          trace := [Call.onStart, Call.waitFor 0, Call.onEvent 0 false (some 0),
            Call.onEvent 1 false (some 1), Call.onEvent 2 true (some 2),
            Call.onEvent 3 false none, Call.handle 7 3 (some 2), Call.set 3] }) ∧
    idleTickRaises.onEvent
      [Call.onStart, Call.waitFor 0, Call.onEvent 0 false (some 0),
        Call.onEvent 1 false (some 1), Call.onEvent 2 true (some 2)] 3 false none =
      .error (Raised.std 7) ∧
    (some 2 : Option Int) ≠ none :=
  ⟨by rfl, by rfl, by decide⟩

/-- Recovery from a raising slot delivery.  Take a pass of the loop in which the wait
returns `a` and an `onEvent` call that carries a ring-buffer slot raises the ordinary
error `e` (the inner loop is left by it, in frame `f1`), with an exception handler
configured.  The failing
call is the last action of `f1`; it was made for the sequence `f1.next_sequence`, between
the `next_sequence` of the head of the pass and `a`, with the slot of that sequence.
The exception handler is called once in the pass, right after the failing call, with
`e`, that sequence and that slot.  When the exception handler returns: the pass ends
recovered, with the `Sequence` set to the failing sequence; the loop goes on, and its
next pass starts by waiting for the failing sequence + 1; no later action of the run
delivers the failing sequence or a lower one; and when that next wait returns `a'` and
nothing raises, the pass delivers the failing sequence + 1 up to `a'`. -/
theorem raise_of_slot_delivery_is_handled (env : Env T E) (f f1 f2 : Frame T E)
    (st : Step E) (a : Int) (e : E)
    (handle : List (Call T E) → E → Int → Option T → Except (Raised E) Unit)
    (hw : env.waitFor f.proc.alerted f.trace f.next_sequence = .ok a)
    (hd : deliver env a { f with trace := f.trace ++ [Call.waitFor f.next_sequence] } =
      (some (Raised.std e), f1))
    (hh : env.exception_handler_ = some handle)
    (hit : iteration env f = (st, f2)) :
    f.next_sequence ≤ f1.next_sequence ∧ f1.next_sequence ≤ a ∧
    (∃ before,
      f1.trace = before ++ [Call.onEvent f1.next_sequence (decide (f1.next_sequence = a))
        (some (env.get f1.next_sequence))] ∧
      env.onEvent before f1.next_sequence (decide (f1.next_sequence = a))
        (some (env.get f1.next_sequence)) = .error (Raised.std e)) ∧
    (∃ rest,
      f2.trace = f1.trace ++
        Call.handle e f1.next_sequence (some (env.get f1.next_sequence)) :: rest ∧
      ∀ c ∈ rest, ∀ e' s' ev', c ≠ Call.handle e' s' ev') ∧
    (handle f1.trace e f1.next_sequence (some (env.get f1.next_sequence)) = .ok () →
      st = Step.recovered ∧
      f2.trace = f1.trace ++
        [Call.handle e f1.next_sequence (some (env.get f1.next_sequence)),
          Call.set f1.next_sequence] ∧
      f2.proc.sequence_ = f1.next_sequence ∧
      f2.next_sequence = f1.next_sequence + 1 ∧
      (∀ n, loop env (n + 1) f = loop env n f2) ∧
      (∃ l, (iteration env f2).2.trace =
        f2.trace ++ Call.waitFor (f1.next_sequence + 1) :: l) ∧
      (∀ n x f3, loop env n f2 = (x, f3) →
        ∃ l, f3.trace = f2.trace ++ l ∧ ∀ s ∈ delivered l, f1.next_sequence < s) ∧
      (∀ a', env.waitFor f2.proc.alerted f2.trace f2.next_sequence = .ok a' →
        (iteration env f2).1 = Step.committed →
        (iteration env f2).2.trace = f2.trace ++ Call.waitFor (f1.next_sequence + 1) ::
          (batch env a' (f1.next_sequence + 1) ++
            idleTick env (max (f1.next_sequence + 1) (a' + 1)) ++
            [Call.set (max (f1.next_sequence + 1) (a' + 1) - 1)]))) := by
  obtain ⟨hle, hev, before, hbefore, hraise⟩ := deliverLoop_raise env a _ _ _ _ hd
  obtain ⟨_, hx, _⟩ := deliverLoop_spec env a _ _ _ _ hd
  have hcatch : catchBlock env (Raised.std e) f1 = (st, f2) := by
    rw [← hit]
    unfold iteration
    simp only [hw, hd]
  unfold catchBlock at hcatch
  simp only [hh, hev] at hcatch
  refine ⟨hx.1, hle, ⟨before, hbefore, hraise⟩, ?_, ?_⟩
  · split at hcatch
    · simp only [Prod.mk.injEq] at hcatch
      obtain ⟨_, rfl⟩ := hcatch
      exact ⟨[], rfl, by simp⟩
    · simp only [Prod.mk.injEq] at hcatch
      obtain ⟨_, rfl⟩ := hcatch
      exact ⟨[Call.set f1.next_sequence], by simp [skip], by simp⟩
  · intro hret
    simp only [hret, Prod.mk.injEq] at hcatch
    obtain ⟨rfl, rfl⟩ := hcatch
    refine ⟨rfl, by simp [skip], rfl, rfl, ?_, ?_, ?_, ?_⟩
    · intro n
      rw [loop, hit]
    · obtain ⟨_, l, hl, _, _⟩ := iteration_wait env _ _ _ (Prod.mk.eta).symm
      exact ⟨l, by rw [hl]; simp [skip]⟩
    · intro n x f3 h3
      obtain ⟨_, l, hl, _, hdel⟩ := loop_spec env n _ _ _ h3
      refine ⟨l, hl, fun s hs => ?_⟩
      have h' : f1.next_sequence + 1 ≤ s := hdel s hs
      omega
    · intro a' hw' hc'
      exact (iteration_committed env _ _ a' hw'
        (by rw [← hc'] : iteration env _ = (Step.committed, (iteration env _).2))).1

/-- Scenario C of the specification, at the pass in which the handler raises on sequence 5
of the batch 0..9: the exception handler gets the error, 5 and the slot of 5, and the
`Sequence` is set to 5. -/
theorem raise_of_slot_delivery_is_handled_witness :
    (iteration scenarioC (enter (store (construct (-1) false) true) [Call.onStart])).2.trace =
      [Call.onStart, Call.waitFor 0, Call.onEvent 0 false (some 0),
        Call.onEvent 1 false (some 1), Call.onEvent 2 false (some 2),
        Call.onEvent 3 false (some 3), Call.onEvent 4 false (some 4),
        Call.onEvent 5 false (some 5), Call.handle 7 5 (some 5), Call.set 5] ∧
    (iteration scenarioC
      (enter (store (construct (-1) false) true) [Call.onStart])).2.proc.sequence_ = 5 :=
  have h := (raise_of_slot_delivery_is_handled scenarioC
    (enter (store (construct (-1) false) true) [Call.onStart])
    { proc := { running_ := true, sequence_ := -1, alerted := false },
      next_sequence := 5, event := some 5,
      trace := [Call.onStart, Call.waitFor 0, Call.onEvent 0 false (some 0),
        Call.onEvent 1 false (some 1), Call.onEvent 2 false (some 2),
        Call.onEvent 3 false (some 3), Call.onEvent 4 false (some 4),
        Call.onEvent 5 false (some 5)] }
    (iteration scenarioC (enter (store (construct (-1) false) true) [Call.onStart])).2
    (iteration scenarioC (enter (store (construct (-1) false) true) [Call.onStart])).1
    9 7 (fun _ _ _ _ => .ok ()) (by rfl) (by rfl) (by rfl) (by rfl)).2.2.2.2 (by rfl)
  ⟨h.2.1, h.2.2.1⟩

/-- Scenario C of the specification: the handler raises on sequence 5 of the batch 0..9.
The exception handler gets the error, 5 and the slot of 5; the `Sequence` is set to 5; the
next wait is for 6; 6..9 are delivered; the run ends with the `Sequence` at 9. -/
theorem scenarioC_run :
    run scenarioC 3 (construct (-1) false) [] =
      (RunResult.returned, { running_ := false, sequence_ := 9, alerted := false },
        [Call.onStart, Call.waitFor 0, Call.onEvent 0 false (some 0),
          Call.onEvent 1 false (some 1), Call.onEvent 2 false (some 2),
          Call.onEvent 3 false (some 3), Call.onEvent 4 false (some 4),
          Call.onEvent 5 false (some 5), Call.handle 7 5 (some 5), Call.set 5,
          Call.waitFor 6, Call.onEvent 6 false (some 6), Call.onEvent 7 false (some 7),
          Call.onEvent 8 false (some 8), Call.onEvent 9 true (some 9), Call.set 9,
          Call.waitFor 10, Call.onShutdown]) := by
  rfl

/-- C5, at the input where the code departs from it.  Run entered at -1; 0..2 are
delivered, the idle tick at 3 raises, then 3..4 are published.  The run returns with the
`Sequence` at 4, having delivered the slots of 0, 1, 2 and 4: sequence 3 is below the
final `Sequence` and its slot was never passed to `onEvent`. -/
theorem sequence_skipped_after_idle_tick_raise :
    run idleTickRaises 3 (construct (-1) false) [] =
      (RunResult.returned, { running_ := false, sequence_ := 4, alerted := false },
        [Call.onStart, Call.waitFor 0, Call.onEvent 0 false (some 0),
          Call.onEvent 1 false (some 1), Call.onEvent 2 true (some 2),
          Call.onEvent 3 false none, Call.handle 7 3 (some 2), Call.set 3,
          Call.waitFor 4, Call.onEvent 4 true (some 0), Call.onEvent 5 false none,
          Call.set 4, Call.waitFor 5, Call.onShutdown]) ∧
    delivered (run idleTickRaises 3 (construct (-1) false) []).2.2 = [0, 1, 2, 4] ∧
    (3 : Int) ∉ delivered (run idleTickRaises 3 (construct (-1) false) []).2.2 ∧
    (3 : Int) ≤ (run idleTickRaises 3 (construct (-1) false) []).2.1.sequence_ :=
  ⟨by rfl, by rfl, by decide, by decide⟩

/-! ## The running-flag check -/

/-- A `run` on a processor whose running flag is true throws the usage error and changes
nothing. -/
theorem run_of_running (env : Env T E) (fuel : Nat) (p : BatchEventProcessor)
    (tr : List (Call T E)) (hp : p.running_ = true) :
    run env fuel p tr = (RunResult.alreadyRunning, p, tr) := by
  obtain ⟨running, sequence, alerted⟩ := p
  simp only at hp
  subst hp
  unfold run
  simp [compare_exchange_strong, store]

/-- A `run` on a processor whose running flag is false does not throw the usage error. -/
theorem run_of_not_running (env : Env T E) (fuel : Nat) (p : BatchEventProcessor)
    (tr : List (Call T E)) (hp : p.running_ = false) :
    (run env fuel p tr).1 ≠ RunResult.alreadyRunning := by
  unfold run
  simp only [hp, compare_exchange_strong, if_true]
  split
  · simp
  · split
    · unfold leave
      split <;> simp
    · simp
    · simp

/-! ## The claims about starting and stopping -/

/-- C6.  Take a call of `run` that passes the running-flag check, whose `onStart` returns,
and that gets to the head of a pass (frame `f`) where `waitFor` reports the alert.  Then
that pass consists of the wait alone and ends in `break`, and the run, for every budget
that reaches this pass, makes one more call after the wait, `onShutdown`: no `onEvent`
call with a slot or with the null event, no call of the exception handler; the
processor's `Sequence` keeps the value it had at the head of the pass. -/
theorem alert_leaves_loop (env : Env T E) (p : BatchEventProcessor) (tr : List (Call T E))
    (k n : Nat) (f : Frame T E)
    (hrun : p.running_ = false)
    (hs : env.onStart tr = .ok ())
    (hk : loopHead env k (enter (store p true) (tr ++ [Call.onStart])) = some f)
    (hw : env.waitFor f.proc.alerted f.trace f.next_sequence = .error .alert) :
    iteration env f =
      (Step.alerted, { f with trace := f.trace ++ [Call.waitFor f.next_sequence] }) ∧
    (run env (k + (n + 1)) p tr).2.2 =
      f.trace ++ [Call.waitFor f.next_sequence, Call.onShutdown] ∧
    (run env (k + (n + 1)) p tr).2.1.sequence_ = f.proc.sequence_ := by
  have hit : iteration env f =
      (Step.alerted, { f with trace := f.trace ++ [Call.waitFor f.next_sequence] }) := by
    unfold iteration
    simp only [hw, catchBlock]
  have hloop : loop env (k + (n + 1)) (enter (store p true) (tr ++ [Call.onStart])) =
      (LoopExit.broke, { f with trace := f.trace ++ [Call.waitFor f.next_sequence] }) := by
    rw [loop_of_loopHead env (n + 1) k _ _ hk, loop, hit]
  have hrun' : run env (k + (n + 1)) p tr =
      leave env { f with trace := f.trace ++ [Call.waitFor f.next_sequence] } := by
    unfold run
    simp only [hrun, compare_exchange_strong, if_true, hs, hloop]
  refine ⟨hit, ?_, ?_⟩
  · rw [hrun']
    unfold leave
    split <;> simp
  · rw [hrun']
    unfold leave
    split <;> simp [store]

/-- Scenario A, after the batch 0..2: the wait for 3 reports the alert, and the run ends
with `onShutdown` and the `Sequence` at 2. -/
theorem alert_leaves_loop_witness :
    (run scenarioA 2 (construct (-1) false) []).2.2 =
      [Call.onStart, Call.waitFor 0, Call.onEvent 0 false (some 0),
        Call.onEvent 1 false (some 1), Call.onEvent 2 true (some 2), Call.set 2,
        Call.waitFor 3, Call.onShutdown] ∧
    (run scenarioA 2 (construct (-1) false) []).2.1.sequence_ = 2 :=
  (alert_leaves_loop scenarioA (construct (-1) false) [] 1 0
    { proc := { running_ := true, sequence_ := 2, alerted := false },
      next_sequence := 3, event := some 2,
      trace := [Call.onStart, Call.waitFor 0, Call.onEvent 0 false (some 0),
        Call.onEvent 1 false (some 1), Call.onEvent 2 true (some 2), Call.set 2] }
    (by rfl) (by rfl) (by rfl) (by rfl)).2

/-- C7.  `run` throws "Thread is already running" exactly when the running flag is true
at the call, whatever the budget; and then the call does nothing else: the processor
(running flag, `Sequence`, barrier) and the trace are as before, so that none of
`onStart`, `onEvent`, `onShutdown` and the exception handler has been called. -/
theorem run_alreadyRunning_iff (env : Env T E) (fuel : Nat) (p : BatchEventProcessor)
    (tr : List (Call T E)) :
    ((run env fuel p tr).1 = RunResult.alreadyRunning ↔ p.running_ = true) ∧
    (p.running_ = true → run env fuel p tr = (RunResult.alreadyRunning, p, tr)) := by
  cases hp : p.running_ with
  | true =>
    exact ⟨by simp [run_of_running env fuel p tr hp], fun _ => run_of_running env fuel p tr hp⟩
  | false => exact ⟨by simpa using run_of_not_running env fuel p tr hp, by simp⟩

/-- A processor that is running refuses a second `run`, and nothing changes. -/
theorem run_alreadyRunning_iff_witness :
    run scenarioA 5 (store (construct (-1) false) true) [] =
      (RunResult.alreadyRunning, store (construct (-1) false) true, []) :=
  (run_alreadyRunning_iff scenarioA 5 (store (construct (-1) false) true) []).2 (by rfl)

/-- C8.  From every state of the processor, `halt` (which has no way to fail) leaves the
running flag false and the barrier alerted, leaves the `Sequence` as it was, and a second
`halt` changes nothing: `halt` after `halt` gives the state that one `halt` gives. -/
theorem halt_idempotent (p : BatchEventProcessor) :
    (halt p).running_ = false ∧ (halt p).alerted = true ∧
    (halt p).sequence_ = p.sequence_ ∧ halt (halt p) = halt p := by
  simp [halt, alert, store]

/-- C9, at the input where the code departs from it.  On a fresh processor, a first `run`
passes the compare-and-set; `halt` clears the running flag while that activation is
still inside `run`; a second `run` then passes the compare-and-set as well: two
activations are between their compare-and-set and their return. -/
theorem two_runners_after_halt :
    ((Shared.fresh (-1) false).steps [Action.runEnter, Action.halt, Action.runEnter]) =
      { proc := { running_ := true, sequence_ := -1, alerted := true }, runners := 2 } ∧
    ¬ ((Shared.fresh (-1) false).steps
        [Action.runEnter, Action.halt, Action.runEnter]).runners ≤ 1 :=
  ⟨by rfl, by decide⟩

/-- C10.  For every call of `run` that returns (it has then passed the running-flag
check), whatever the barrier and the handlers did: the first action of the call is
`onStart`, its last action is `onShutdown`, and no action in between is `onStart` or
`onShutdown`.  So `onStart` is called once and before every `onEvent`, `onShutdown` is
called once and after every `onEvent` and every call of the exception handler.  On
return the running flag is false. -/
theorem run_returned_brackets (env : Env T E) (fuel : Nat) (p p' : BatchEventProcessor)
    (tr tr' : List (Call T E))
    (h : run env fuel p tr = (RunResult.returned, p', tr')) :
    p.running_ = false ∧ p'.running_ = false ∧
    ∃ mid, tr' = tr ++ Call.onStart :: (mid ++ [Call.onShutdown]) ∧
      ∀ c ∈ mid, c ≠ Call.onStart ∧ c ≠ Call.onShutdown := by
  cases hp : p.running_ with
  | true =>
    rw [run_of_running env fuel p tr hp] at h
    simp at h
  | false =>
    unfold run at h
    simp only [hp, compare_exchange_strong, if_true] at h
    split at h
    · simp at h
    · split at h
      · rename_i f hl
        obtain ⟨_, l, h1, h2, _⟩ := loop_spec env _ _ _ _ hl
        unfold leave at h
        split at h
        · simp at h
        · simp only [Prod.mk.injEq, true_and] at h
          obtain ⟨rfl, rfl⟩ := h
          refine ⟨rfl, by simp [store], l, ?_, h2⟩
          rw [h1]
          simp [enter]
      · simp at h
      · simp at h

/-- Scenario A: the run returns, with `onStart` first and `onShutdown` last. -/
theorem run_returned_brackets_witness :
    ∃ mid, [Call.onStart, Call.waitFor 0, Call.onEvent 0 false (some 0),
        Call.onEvent 1 false (some 1), Call.onEvent 2 true (some 2), Call.set 2,
        Call.waitFor 3, Call.onShutdown] =
        ([] : List (Call Int Nat)) ++ Call.onStart :: (mid ++ [Call.onShutdown]) ∧
      ∀ c ∈ mid, c ≠ Call.onStart ∧ c ≠ Call.onShutdown :=
  (run_returned_brackets scenarioA 2 (construct (-1) false)
    { running_ := false, sequence_ := 2, alerted := false } []
    [Call.onStart, Call.waitFor 0, Call.onEvent 0 false (some 0),
      Call.onEvent 1 false (some 1), Call.onEvent 2 true (some 2), Call.set 2,
      Call.waitFor 3, Call.onShutdown] (by rfl)).2.2

/-- C11.  Take a processor whose barrier is already alerted when `run` is called, with the
running flag false, a barrier that fails fast once alerted, and an `onStart` that
returns.  Then, for every budget of at least one pass, the actions of the run are
`onStart`, the wait for `sequence_ + 1`, and `onShutdown`: `onStart` once, no `onEvent`
call with a slot or with the null event, `onShutdown` once; the processor's `Sequence`
is unchanged and the barrier is still alerted; and the run has left the loop (it
returned, or `onShutdown` raised). -/
theorem run_on_alerted_barrier (env : Env T E) (p : BatchEventProcessor)
    (tr : List (Call T E)) (n : Nat)
    (hfast : AlertedBarrierFailsFast env)
    (hrun : p.running_ = false) (hal : p.alerted = true)
    (hs : env.onStart tr = .ok ()) :
    (run env (n + 1) p tr).2.2 =
      tr ++ [Call.onStart, Call.waitFor (p.sequence_ + 1), Call.onShutdown] ∧
    (run env (n + 1) p tr).2.1.sequence_ = p.sequence_ ∧
    (run env (n + 1) p tr).2.1.alerted = true ∧
    ((run env (n + 1) p tr).1 = RunResult.returned ∨
      ∃ r, (run env (n + 1) p tr).1 = RunResult.propagated r) := by
  have hw : env.waitFor (enter (store p true) (tr ++ [Call.onStart])).proc.alerted
      (enter (store p true) (tr ++ [Call.onStart])).trace
      (enter (store p true) (tr ++ [Call.onStart])).next_sequence = .error Raised.alert := by
    simp only [enter, store, hal]
    exact hfast _ _
  have hit : iteration env (enter (store p true) (tr ++ [Call.onStart])) =
      (Step.alerted, { enter (store p true) (tr ++ [Call.onStart]) with
        trace := tr ++ [Call.onStart] ++ [Call.waitFor (p.sequence_ + 1)] }) := by
    unfold iteration
    simp only [hw, catchBlock]
    simp [enter, store]
  have hrun' : run env (n + 1) p tr =
      leave env { enter (store p true) (tr ++ [Call.onStart]) with
        trace := tr ++ [Call.onStart] ++ [Call.waitFor (p.sequence_ + 1)] } := by
    unfold run
    simp only [hrun, compare_exchange_strong, if_true, hs, loop, hit]
  rw [hrun']
  unfold leave
  split <;> simp [enter, store, hal]

/-- With `halt` called twice before `run`: the run calls `onStart`, waits once, calls
`onShutdown`, and returns with the `Sequence` at -1 and the barrier alerted. -/
theorem run_on_alerted_barrier_witness :
    (run scenarioHalted 3 (halt (halt (construct (-1) false))) []).2.2 =
      [Call.onStart, Call.waitFor 0, Call.onShutdown] ∧
    (run scenarioHalted 3 (halt (halt (construct (-1) false))) []).2.1.sequence_ = -1 ∧
    (run scenarioHalted 3 (halt (halt (construct (-1) false))) []).2.1.alerted = true :=
  have h := run_on_alerted_barrier scenarioHalted (halt (halt (construct (-1) false))) [] 2
    (fun _ _ => rfl) (by rfl) (by rfl) (by rfl)
  ⟨h.1, h.2.1, h.2.2.1⟩

/-! ## Which actions a pass makes -/

/-- The loop body is its `try` block followed, when an exception leaves it, by the `catch`
clauses. -/
theorem iteration_eq_tryBlock (env : Env T E) (f : Frame T E) :
    iteration env f =
      match tryBlock env f with
      | (some r, f1) => catchBlock env r f1
      | (none, f1) => (Step.committed, f1) := by
  unfold iteration tryBlock
  simp only
  split
  · rfl
  · rename_i a _
    split
    · rename_i r f1 hdl
      rfl
    · rename_i f1 hdl
      unfold afterBatch
      split
      · simp only
        split <;> simp [commit]
      · simp [commit]

/-- The inner loop adds only deliveries of slots to the trace. -/
theorem deliverLoop_slots (env : Env T E) (a : Int) :
    ∀ (n : Nat) (f f' : Frame T E) (r : Option (Raised E)), deliverLoop env a n f = (r, f') →
      ∃ l, f'.trace = f.trace ++ l ∧ ∀ c ∈ l, ∃ s b ev, c = Call.onEvent s b (some ev) := by
  intro n
  induction n with
  | zero =>
    intro f f' r h
    simp only [deliverLoop, Prod.mk.injEq] at h
    obtain ⟨_, rfl⟩ := h
    exact ⟨[], by simp⟩
  | succ n ih =>
    intro f f' r h
    rw [deliverLoop] at h
    split at h
    · simp only at h
      split at h
      · simp only [Prod.mk.injEq] at h
        obtain ⟨_, rfl⟩ := h
        refine ⟨[Call.onEvent f.next_sequence (decide (f.next_sequence = a))
          (some (env.get f.next_sequence))], rfl, ?_⟩
        intro c hmem
        exact ⟨_, _, _, List.mem_singleton.1 hmem⟩
      · obtain ⟨l, hl, hc⟩ := ih _ _ _ h
        refine ⟨Call.onEvent f.next_sequence (decide (f.next_sequence = a))
          (some (env.get f.next_sequence)) :: l, by simp [hl], ?_⟩
        intro c hmem
        rcases List.mem_cons.1 hmem with hmem | hmem
        · exact ⟨_, _, _, hmem⟩
        · exact hc c hmem
    · simp only [Prod.mk.injEq] at h
      obtain ⟨_, rfl⟩ := h
      exact ⟨[], by simp⟩

/-- The `catch` clauses add to the trace at most one call of the exception handler, and
only when one is configured, and at most one write of the `Sequence`. -/
theorem catchBlock_calls (env : Env T E) (r : Raised E) (f f' : Frame T E) (st : Step E)
    (h : catchBlock env r f = (st, f')) :
    ∃ l, f'.trace = f.trace ++ l ∧
      ∀ c ∈ l, (env.exception_handler_.isSome = true ∧ ∃ e s ev, c = Call.handle e s ev) ∨
        ∃ v, c = Call.set v := by
  unfold catchBlock at h
  split at h
  · simp only [Prod.mk.injEq] at h
    obtain ⟨_, rfl⟩ := h
    exact ⟨[], by simp⟩
  · simp only [Prod.mk.injEq] at h
    obtain ⟨_, rfl⟩ := h
    exact ⟨[], by simp⟩
  · rename_i e
    split at h
    · simp only [Prod.mk.injEq] at h
      obtain ⟨_, rfl⟩ := h
      exact ⟨[Call.set f.next_sequence], by simp [skip], by simp⟩
    · rename_i handle hh
      split at h
      · simp only [Prod.mk.injEq] at h
        obtain ⟨_, rfl⟩ := h
        exact ⟨[Call.handle e f.next_sequence f.event], by simp, by simp [hh]⟩
      · simp only [Prod.mk.injEq] at h
        obtain ⟨_, rfl⟩ := h
        exact ⟨[Call.handle e f.next_sequence f.event, Call.set f.next_sequence],
          by simp [skip], by simp [hh]⟩

/-- A batch that no exception leaves: the trace, `next_sequence` and the end-of-batch flag
that the idle tick computes, which is `false`. -/
theorem deliver_none (env : Env T E) (a : Int) (f f1 : Frame T E)
    (hd : deliver env a f = (none, f1)) :
    f1.trace = f.trace ++ batch env a f.next_sequence ∧ f1.proc = f.proc ∧
    f1.next_sequence = max f.next_sequence (a + 1) ∧
    decide (f1.next_sequence = a) = false := by
  obtain ⟨h1, h2, h3⟩ := deliverLoop_none env a _ _ _ hd (le_refl _)
  refine ⟨h1, h2, h3, ?_⟩
  have : max f.next_sequence (a + 1) ≠ a := by
    have := le_max_right f.next_sequence (a + 1)
    omega
  simp [h3, this]

/-- The actions of the `try` block: the wait first, then deliveries of slots, then, when
the wait returned `a` and the idle duration is not zero, at most the idle tick for
`max next_sequence (a + 1)` with the flag `false`, then at most a write of the
`Sequence`. -/
theorem tryBlock_calls (env : Env T E) (f f1 : Frame T E) (r : Option (Raised E))
    (h : tryBlock env f = (r, f1)) :
    ∃ l, f1.trace = f.trace ++ Call.waitFor f.next_sequence :: l ∧
      ∀ c ∈ l, (∃ s b ev, c = Call.onEvent s b (some ev)) ∨ (∃ v, c = Call.set v) ∨
        (env.ticks ≠ 0 ∧ ∃ a, env.waitFor f.proc.alerted f.trace f.next_sequence = .ok a ∧
          c = Call.onEvent (max f.next_sequence (a + 1)) false none) := by
  unfold tryBlock at h
  simp only at h
  split at h
  · simp only [Prod.mk.injEq] at h
    obtain ⟨_, rfl⟩ := h
    exact ⟨[], by simp⟩
  · rename_i a hw
    split at h
    · rename_i r' g hdl
      simp only [Prod.mk.injEq] at h
      obtain ⟨_, rfl⟩ := h
      obtain ⟨l, hl, hc⟩ := deliverLoop_slots env a _ _ _ _ hdl
      exact ⟨l, by simp [hl], fun c hmem => Or.inl (hc c hmem)⟩
    · rename_i g hdl
      obtain ⟨l, hl, hc⟩ := deliverLoop_slots env a _ _ _ _ hdl
      obtain ⟨_, _, hnext, hflag⟩ := deliver_none env a _ _ hdl
      simp only at hnext
      split at h
      · rename_i ht
        simp only [hflag] at h
        simp only [hnext] at h
        have htick : ∀ c ∈ l ++ [Call.onEvent (max f.next_sequence (a + 1)) false none],
            (∃ s b ev, c = Call.onEvent s b (some ev)) ∨ (∃ v, c = Call.set v) ∨
            (env.ticks ≠ 0 ∧ ∃ a, env.waitFor f.proc.alerted f.trace f.next_sequence = .ok a ∧
              c = Call.onEvent (max f.next_sequence (a + 1)) false none) := by
          intro c hmem
          rcases List.mem_append.1 hmem with hmem | hmem
          · exact Or.inl (hc c hmem)
          · exact Or.inr (Or.inr ⟨ht, a, hw, List.mem_singleton.1 hmem⟩)
        split at h
        · simp only [Prod.mk.injEq] at h
          obtain ⟨_, rfl⟩ := h
          exact ⟨l ++ [Call.onEvent (max f.next_sequence (a + 1)) false none],
            by simp [hl], htick⟩
        · simp only [commit, Prod.mk.injEq] at h
          obtain ⟨_, rfl⟩ := h
          refine ⟨(l ++ [Call.onEvent (max f.next_sequence (a + 1)) false none]) ++
            [Call.set (max f.next_sequence (a + 1) - 1)], by simp [hl], ?_⟩
          intro c hmem
          rcases List.mem_append.1 hmem with hmem | hmem
          · exact htick c hmem
          · exact Or.inr (Or.inl ⟨_, List.mem_singleton.1 hmem⟩)
      · simp only [commit, Prod.mk.injEq] at h
        obtain ⟨_, rfl⟩ := h
        refine ⟨l ++ [Call.set (g.next_sequence - 1)], by simp [hl], ?_⟩
        intro c hmem
        rcases List.mem_append.1 hmem with hmem | hmem
        · exact Or.inl (hc c hmem)
        · exact Or.inr (Or.inl ⟨_, List.mem_singleton.1 hmem⟩)

/-- The actions of a pass of the loop: those of the `try` block, then at most one call of
the exception handler, and only when one is configured, and at most one more write of
the `Sequence`. -/
theorem iteration_calls (env : Env T E) (f f' : Frame T E) (st : Step E)
    (h : iteration env f = (st, f')) :
    ∃ l, f'.trace = f.trace ++ Call.waitFor f.next_sequence :: l ∧
      ∀ c ∈ l, (∃ s b ev, c = Call.onEvent s b (some ev)) ∨ (∃ v, c = Call.set v) ∨
        (env.ticks ≠ 0 ∧ ∃ a, env.waitFor f.proc.alerted f.trace f.next_sequence = .ok a ∧
          c = Call.onEvent (max f.next_sequence (a + 1)) false none) ∨
        (env.exception_handler_.isSome = true ∧ ∃ e s ev, c = Call.handle e s ev) := by
  rw [iteration_eq_tryBlock] at h
  split at h
  · rename_i r f1 htry
    obtain ⟨l, hl, hc⟩ := tryBlock_calls env _ _ _ htry
    obtain ⟨l', hl', hc'⟩ := catchBlock_calls env r _ _ _ h
    refine ⟨l ++ l', by simp [hl', hl], ?_⟩
    intro c hmem
    rcases List.mem_append.1 hmem with hmem | hmem
    · rcases hc c hmem with h1 | h1 | h1
      · exact Or.inl h1
      · exact Or.inr (Or.inl h1)
      · exact Or.inr (Or.inr (Or.inl h1))
    · rcases hc' c hmem with h1 | h1
      · exact Or.inr (Or.inr (Or.inr h1))
      · exact Or.inr (Or.inl h1)
  · rename_i f1 htry
    simp only [Prod.mk.injEq] at h
    obtain ⟨_, rfl⟩ := h
    obtain ⟨l, hl, hc⟩ := tryBlock_calls env _ _ _ htry
    refine ⟨l, hl, ?_⟩
    intro c hmem
    rcases hc c hmem with h1 | h1 | h1
    · exact Or.inl h1
    · exact Or.inr (Or.inl h1)
    · exact Or.inr (Or.inr (Or.inl h1))

/-- Every action of a pass of the loop is one the loop makes with its configuration. -/
theorem iteration_made (env : Env T E) (f f' : Frame T E) (st : Step E)
    (h : iteration env f = (st, f')) :
    ∃ l, f'.trace = f.trace ++ l ∧ ∀ c ∈ l, madeByLoop env c := by
  obtain ⟨l, hl, hc⟩ := iteration_calls env f f' st h
  refine ⟨Call.waitFor f.next_sequence :: l, hl, ?_⟩
  intro c hmem
  rcases List.mem_cons.1 hmem with hmem | hmem
  · subst hmem; trivial
  · rcases hc c hmem with ⟨s, b, ev, rfl⟩ | ⟨v, rfl⟩ | ⟨ht, a, _, rfl⟩ | ⟨hh, e, s, ev, rfl⟩
    · trivial
    · trivial
    · exact ⟨ht, rfl⟩
    · exact hh

/-- Every action of the loop is one the loop makes with its configuration. -/
theorem loop_made (env : Env T E) :
    ∀ (n : Nat) (f f' : Frame T E) (x : LoopExit E), loop env n f = (x, f') →
      ∃ l, f'.trace = f.trace ++ l ∧ ∀ c ∈ l, madeByLoop env c := by
  intro n
  induction n with
  | zero =>
    intro f f' x h
    simp only [loop, Prod.mk.injEq] at h
    obtain ⟨_, rfl⟩ := h
    exact ⟨[], by simp⟩
  | succ n ih =>
    intro f f' x h
    rw [loop] at h
    have hjoin : ∀ (f1 : Frame T E) (st : Step E), iteration env f = (st, f1) →
        (∃ l, f'.trace = f1.trace ++ l ∧ ∀ c ∈ l, madeByLoop env c) →
        ∃ l, f'.trace = f.trace ++ l ∧ ∀ c ∈ l, madeByLoop env c := by
      intro f1 st hit ⟨l, hl, hc⟩
      obtain ⟨l1, hl1, hc1⟩ := iteration_made env _ _ _ hit
      refine ⟨l1 ++ l, by simp [hl, hl1], ?_⟩
      intro c hmem
      rcases List.mem_append.1 hmem with hmem | hmem
      · exact hc1 c hmem
      · exact hc c hmem
    split at h
    · rename_i f1 hit
      exact hjoin _ _ hit (ih _ _ _ h)
    · rename_i f1 hit
      exact hjoin _ _ hit (ih _ _ _ h)
    · rename_i f1 hit
      simp only [Prod.mk.injEq] at h
      obtain ⟨_, rfl⟩ := h
      exact iteration_made env _ _ _ hit
    · rename_i r f1 hit
      simp only [Prod.mk.injEq] at h
      obtain ⟨_, rfl⟩ := h
      exact iteration_made env _ _ _ hit

/-- Every action of a call of `run` is `onStart`, `onShutdown`, or one the loop makes with
its configuration. -/
theorem run_made (env : Env T E) (fuel : Nat) (p : BatchEventProcessor)
    (tr : List (Call T E)) :
    ∃ l, (run env fuel p tr).2.2 = tr ++ l ∧
      ∀ c ∈ l, c = Call.onStart ∨ c = Call.onShutdown ∨ madeByLoop env c := by
  cases hp : p.running_ with
  | true => exact ⟨[], by simp [run_of_running env fuel p tr hp]⟩
  | false =>
    unfold run
    simp only [hp, compare_exchange_strong, if_true]
    cases hs : env.onStart tr with
    | error r => exact ⟨[Call.onStart], by simp⟩
    | ok u =>
      simp only
      cases hl : loop env fuel (enter (store p true) (tr ++ [Call.onStart])) with
      | mk x f =>
        obtain ⟨l, hl', hc⟩ := loop_made env _ _ _ _ hl
        have hin : ∀ c ∈ Call.onStart :: l,
            c = Call.onStart ∨ c = Call.onShutdown ∨ madeByLoop env c := by
          intro c hmem
          rcases List.mem_cons.1 hmem with hmem | hmem
          · exact Or.inl hmem
          · exact Or.inr (Or.inr (hc c hmem))
        cases x with
        | broke =>
          simp only
          have hout : ∀ c ∈ Call.onStart :: (l ++ [Call.onShutdown]),
              c = Call.onStart ∨ c = Call.onShutdown ∨ madeByLoop env c := by
            intro c hmem
            rcases List.mem_cons.1 hmem with hmem | hmem
            · exact Or.inl hmem
            · rcases List.mem_append.1 hmem with hmem | hmem
              · exact Or.inr (Or.inr (hc c hmem))
              · exact Or.inr (Or.inl (List.mem_singleton.1 hmem))
          refine ⟨Call.onStart :: (l ++ [Call.onShutdown]), ?_, hout⟩
          unfold leave
          split <;> simp [hl', enter]
        | threw r => exact ⟨Call.onStart :: l, by simp [hl', enter], hin⟩
        | looping => exact ⟨Call.onStart :: l, by simp [hl', enter], hin⟩

theorem batch_slots (env : Env T E) (a next : Int) :
    ∀ c ∈ batch env a next, ∃ s b ev, c = Call.onEvent s b (some ev) := by
  intro c hmem
  unfold batch at hmem
  obtain ⟨i, _, rfl⟩ := List.mem_map.1 hmem
  exact ⟨_, _, _, rfl⟩

/-- A pass whose wait returns `a` and whose slot deliveries all return, with an idle
duration that is not zero: after the wait and the batch comes the idle tick, then at most
a call of the exception handler and one write of the `Sequence`. -/
theorem iteration_with_tick (env : Env T E) (f f1 : Frame T E) (a : Int)
    (hw : env.waitFor f.proc.alerted f.trace f.next_sequence = .ok a)
    (hd : deliver env a { f with trace := f.trace ++ [Call.waitFor f.next_sequence] } =
      (none, f1))
    (ht : env.ticks ≠ 0) :
    ∃ rest, (iteration env f).2.trace = f.trace ++ Call.waitFor f.next_sequence ::
        (batch env a f.next_sequence ++
          Call.onEvent (max f.next_sequence (a + 1)) false none :: rest) ∧
      ∀ c ∈ rest, (∃ e s ev, c = Call.handle e s ev) ∨ ∃ v, c = Call.set v := by
  obtain ⟨htr, _, hnext, hflag⟩ := deliver_none env a _ _ hd
  simp only at htr hnext
  rw [iteration_eq_tryBlock]
  unfold tryBlock
  simp only [hw, hd, ht, ne_eq, not_false_eq_true, if_true, hflag]
  simp only [hnext]
  cases hev : env.onEvent f1.trace (max f.next_sequence (a + 1)) false none with
  | error r =>
    simp only
    obtain ⟨l, hl, hc⟩ := catchBlock_calls env r _ _ _ Prod.mk.eta.symm
    refine ⟨l, by rw [hl, htr]; simp, ?_⟩
    intro c hmem
    rcases hc c hmem with ⟨_, h1⟩ | h1
    · exact Or.inl h1
    · exact Or.inr h1
  | ok u =>
    simp only [commit]
    exact ⟨[Call.set (max f.next_sequence (a + 1) - 1)], by rw [htr]; simp, by simp⟩

/-! ## The claims about the idle tick -/

/-- C12.  When the idle duration is not zero: in every pass of the loop in which
`waitFor` returns (`a`) and no slot delivery raises, the actions of the pass are the
wait, the slot deliveries of the batch (none when the batch is empty), then one `onEvent`
call with the null event, then nothing but at most a call of the exception handler and a
write of the `Sequence`.  So there is exactly one `onEvent` call with the null event, it
comes after all slot deliveries of the pass and before the `Sequence` is written.  When
the idle duration is zero: no action of any call of `run` is an `onEvent` call with the
null event. -/
theorem idle_tick_once_per_pass (env : Env T E) :
    (env.ticks ≠ 0 → ∀ (f f1 : Frame T E) (a : Int),
      env.waitFor f.proc.alerted f.trace f.next_sequence = .ok a →
      deliver env a { f with trace := f.trace ++ [Call.waitFor f.next_sequence] } =
        (none, f1) →
      ∃ s b rest, (iteration env f).2.trace = f.trace ++ Call.waitFor f.next_sequence ::
          (batch env a f.next_sequence ++ Call.onEvent s b none :: rest) ∧
        (∀ c ∈ batch env a f.next_sequence, ∃ s' b' ev', c = Call.onEvent s' b' (some ev')) ∧
        (∀ c ∈ rest, (∃ e s' ev', c = Call.handle e s' ev') ∨ ∃ v, c = Call.set v)) ∧
    (env.ticks = 0 → ∀ (fuel : Nat) (p : BatchEventProcessor) (tr : List (Call T E)),
      ∃ added, (run env fuel p tr).2.2 = tr ++ added ∧
        ∀ c ∈ added, ∀ s b, c ≠ Call.onEvent s b none) := by
  constructor
  · intro ht f f1 a hw hd
    obtain ⟨rest, h1, h2⟩ := iteration_with_tick env f f1 a hw hd ht
    exact ⟨_, _, rest, h1, batch_slots env a f.next_sequence, h2⟩
  · intro ht fuel p tr
    obtain ⟨l, hl, hc⟩ := run_made env fuel p tr
    refine ⟨l, hl, ?_⟩
    intro c hmem s b heq
    subst heq
    rcases hc _ hmem with h | h | h
    · exact absurd h (by simp)
    · exact absurd h (by simp)
    · exact h.1 ht

/-- With an idle duration of 1000 ticks and the batch 0..2: one null `onEvent` call, after
the three slot deliveries and before the write of the `Sequence`; and after an empty
batch as well.  With no idle duration, scenario A has no null `onEvent` call. -/
theorem idle_tick_once_per_pass_witness :
    (∃ s b rest,
      (iteration scenarioIdle (enter (store (construct (-1) false) true) [])).2.trace =
        [] ++ Call.waitFor 0 :: (batch scenarioIdle 2 0 ++ Call.onEvent s b none :: rest) ∧
      (∀ c ∈ batch scenarioIdle 2 0, ∃ s' b' ev', c = Call.onEvent s' b' (some ev')) ∧
      (∀ c ∈ rest, (∃ e s' ev', c = Call.handle e s' ev') ∨ ∃ v, c = Call.set v)) ∧
    (∃ added, (run scenarioA 2 (construct (-1) false) []).2.2 = [] ++ added ∧
      ∀ c ∈ added, ∀ s b, c ≠ Call.onEvent s b none) :=
  ⟨(idle_tick_once_per_pass scenarioIdle).1 (by decide)
      (enter (store (construct (-1) false) true) [])
      { proc := { running_ := true, sequence_ := -1, alerted := false },
        next_sequence := 3, event := some 2,
        trace := [Call.waitFor 0, Call.onEvent 0 false (some 0),
          Call.onEvent 1 false (some 1), Call.onEvent 2 true (some 2)] }
      2 (by rfl) (by rfl),
   (idle_tick_once_per_pass scenarioA).2 (by rfl) 2 (construct (-1) false) []⟩

/-- C18.  Every `onEvent` call with the null event among the actions of a pass of the
loop has the flag `isEndOfBatch` false, and is made in a pass whose wait returned, say
`a`; its sequence argument is `a + 1` when the batch was not empty (`next_sequence ≤ a`
at the head of the pass) and the `next_sequence` of the head of the pass when it was
empty (`a < next_sequence`): one more than the highest sequence processed so far. -/
theorem idle_tick_arguments (env : Env T E) (f : Frame T E) (l : List (Call T E))
    (s : Int) (b : Bool)
    (hl : (iteration env f).2.trace = f.trace ++ l)
    (hmem : Call.onEvent s b none ∈ l) :
    b = false ∧
    ∃ a, env.waitFor f.proc.alerted f.trace f.next_sequence = .ok a ∧
      (f.next_sequence ≤ a → s = a + 1) ∧ (a < f.next_sequence → s = f.next_sequence) := by
  obtain ⟨l', hl', hc⟩ := iteration_calls env f _ _ Prod.mk.eta.symm
  rw [hl'] at hl
  have hll : l = Call.waitFor f.next_sequence :: l' := (List.append_cancel_left hl).symm
  subst hll
  rcases List.mem_cons.1 hmem with h | h
  · exact absurd h (by simp)
  · rcases hc _ h with ⟨_, _, _, h1⟩ | ⟨_, h1⟩ | ⟨_, a, hw, h1⟩ | ⟨_, _, _, _, h1⟩
    · exact absurd h1 (by simp)
    · exact absurd h1 (by simp)
    · simp only [Call.onEvent.injEq, and_true] at h1
      obtain ⟨rfl, rfl⟩ := h1
      refine ⟨rfl, a, hw, fun hle => max_eq_right (by omega), fun hlt => max_eq_left (by omega)⟩
    · exact absurd h1 (by simp)

/-- With the batch 0..2 delivered in a run entered at -1, the idle tick is
`onEvent(3, false, NULL)`: its flag is false and its sequence is 2 + 1. -/
theorem idle_tick_arguments_witness :
    false = false ∧
    ∃ a, scenarioIdle.waitFor false [] 0 = .ok a ∧
      ((0 : Int) ≤ a → (3 : Int) = a + 1) ∧ (a < 0 → (3 : Int) = 0) := by
  have h := idle_tick_arguments scenarioIdle (enter (store (construct (-1) false) true) [])
    [Call.waitFor 0, Call.onEvent 0 false (some 0), Call.onEvent 1 false (some 1),
      Call.onEvent 2 true (some 2), Call.onEvent 3 false none, Call.set 2]
    3 false (by rfl) (by decide)
  simpa [enter, store, construct] using h

/-! ## The claim about a null exception handler -/

/-- The inner loop does not look at the exception handler. -/
theorem deliverLoop_handler (env : Env T E)
    (x : Option (List (Call T E) → E → Int → Option T → Except (Raised E) Unit))
    (a : Int) : ∀ (n : Nat) (f : Frame T E),
      deliverLoop { env with exception_handler_ := x } a n f = deliverLoop env a n f := by
  intro n
  induction n with
  | zero => intro f; rfl
  | succ n ih =>
    intro f
    simp only [deliverLoop, ih]

/-- The `try` block does not look at the exception handler. -/
theorem tryBlock_handler (env : Env T E)
    (x : Option (List (Call T E) → E → Int → Option T → Except (Raised E) Unit))
    (f : Frame T E) :
    tryBlock { env with exception_handler_ := x } f = tryBlock env f := by
  simp only [tryBlock, deliver, deliverLoop_handler]

/-- C20.  Take a pass of the loop whose `try` block is left by an ordinary error `e` (raised
by an `onEvent` call, with a slot or with the null event, or by the wait), in frame `f1`,
while `exception_handler_` is null.  The pass ends recovered: the only action after the raise
is the write of the `Sequence`, which is set to the `next_sequence` of the moment;
`next_sequence` goes up by one; the loop goes on and its next pass starts with the wait
for that `next_sequence`.  With an exception handler that returns, the same pass ends
recovered with the same processor, `next_sequence` and `event`, and its trace differs
by the call of the handler only.  No action of any call of `run` is a call of the
exception handler. -/
theorem recovery_without_exception_handler (env : Env T E) (f f1 : Frame T E) (e : E)
    (hnull : env.exception_handler_ = none)
    (htry : tryBlock env f = (some (Raised.std e), f1)) :
    iteration env f = (Step.recovered, skip f1) ∧
    (skip f1).trace = f1.trace ++ [Call.set f1.next_sequence] ∧
    (skip f1).proc.sequence_ = f1.next_sequence ∧
    (skip f1).next_sequence = f1.next_sequence + 1 ∧
    (∀ n, loop env (n + 1) f = loop env n (skip f1)) ∧
    (∃ l, (iteration env (skip f1)).2.trace =
      (skip f1).trace ++ Call.waitFor (f1.next_sequence + 1) :: l) ∧
    (∀ handle, handle f1.trace e f1.next_sequence f1.event = .ok () →
      ∃ f2, iteration { env with exception_handler_ := some handle } f =
          (Step.recovered, f2) ∧
        f2.proc = (skip f1).proc ∧ f2.next_sequence = (skip f1).next_sequence ∧
        f2.event = (skip f1).event ∧
        f2.trace = f1.trace ++
          [Call.handle e f1.next_sequence f1.event, Call.set f1.next_sequence]) ∧
    (∀ (fuel : Nat) (p : BatchEventProcessor) (tr : List (Call T E)),
      ∃ added, (run env fuel p tr).2.2 = tr ++ added ∧
        ∀ c ∈ added, ∀ e' s ev, c ≠ Call.handle e' s ev) := by
  have hit : iteration env f = (Step.recovered, skip f1) := by
    rw [iteration_eq_tryBlock, htry]
    simp only [catchBlock, hnull]
  refine ⟨hit, rfl, rfl, rfl, ?_, ?_, ?_, ?_⟩
  · intro n
    rw [loop, hit]
  · obtain ⟨_, l, hl, _, _⟩ := iteration_wait env (skip f1) _ _ Prod.mk.eta.symm
    exact ⟨l, by rw [hl]; simp [skip]⟩
  · intro handle hret
    refine ⟨skip { f1 with trace := f1.trace ++
      [Call.handle e f1.next_sequence f1.event] }, ?_, rfl, rfl, rfl, by simp [skip]⟩
    rw [iteration_eq_tryBlock, tryBlock_handler, htry]
    simp only [catchBlock, hret]
  · intro fuel p tr
    obtain ⟨l, hl, hc⟩ := run_made env fuel p tr
    refine ⟨l, hl, ?_⟩
    intro c hmem e' s ev heq
    subst heq
    rcases hc _ hmem with h | h | h
    · exact absurd h (by simp)
    · exact absurd h (by simp)
    · simp [madeByLoop, hnull] at h

/-- Scenario C without an exception handler, at the pass in which the handler raises on
sequence 5 of the batch 0..9: the pass ends recovered, with the `Sequence` at 5 and
`next_sequence` at 6, and no call of the exception handler. -/
theorem recovery_without_exception_handler_witness :
    iteration scenarioNoHandler (enter (store (construct (-1) false) true) [Call.onStart]) =
      (Step.recovered,
        { proc := { running_ := true, sequence_ := 5, alerted := false },
          next_sequence := 6, event := some 5,
          trace := [Call.onStart, Call.waitFor 0, Call.onEvent 0 false (some 0),
            Call.onEvent 1 false (some 1), Call.onEvent 2 false (some 2),
            Call.onEvent 3 false (some 3), Call.onEvent 4 false (some 4),
            Call.onEvent 5 false (some 5), Call.set 5] }) :=
  (recovery_without_exception_handler scenarioNoHandler
    (enter (store (construct (-1) false) true) [Call.onStart])
    { proc := { running_ := true, sequence_ := -1, alerted := false },
      next_sequence := 5, event := some 5,
      trace := [Call.onStart, Call.waitFor 0, Call.onEvent 0 false (some 0),
        Call.onEvent 1 false (some 1), Call.onEvent 2 false (some 2),
        Call.onEvent 3 false (some 3), Call.onEvent 4 false (some 4),
        Call.onEvent 5 false (some 5)] }
    7 (by rfl) (by rfl)).1

/-! ## The writes of the `Sequence` -/

theorem sequenceAfter_append (current : Int) (l₁ l₂ : List (Call T E)) :
    sequenceAfter current (l₁ ++ l₂) = sequenceAfter (sequenceAfter current l₁) l₂ := by
  induction l₁ generalizing current with
  | nil => rfl
  | cons c l ih => cases c <;> simp [sequenceAfter, ih]

theorem nonRewinding_append (current : Int) (l₁ l₂ : List (Call T E)) :
    nonRewinding current (l₁ ++ l₂) ↔
      nonRewinding current l₁ ∧ nonRewinding (sequenceAfter current l₁) l₂ := by
  induction l₁ generalizing current with
  | nil => simp [nonRewinding, sequenceAfter]
  | cons c l ih => cases c <;> simp [nonRewinding, sequenceAfter, ih, and_assoc]

/-- Actions that are not writes of the `Sequence` leave it alone. -/
theorem quiet_of_no_set (current : Int) (l : List (Call T E))
    (h : ∀ c ∈ l, ∀ v, c ≠ Call.set v) :
    nonRewinding current l ∧ sequenceAfter current l = current := by
  induction l with
  | nil => exact ⟨trivial, rfl⟩
  | cons c l ih =>
    have ih' := ih (fun c' hc' => h c' (List.mem_cons_of_mem _ hc'))
    cases c with
    | set v => exact absurd rfl (h _ (List.mem_cons_self _ _) v)
    | _ => simpa [nonRewinding, sequenceAfter] using ih'

theorem writes_refl (f : Frame T E) : Writes f f :=
  ⟨[], by simp, trivial, rfl⟩

theorem writes_trans {f f' f'' : Frame T E} (h₁ : Writes f f') (h₂ : Writes f' f'') :
    Writes f f'' := by
  obtain ⟨l₁, ht₁, hn₁, hs₁⟩ := h₁
  obtain ⟨l₂, ht₂, hn₂, hs₂⟩ := h₂
  refine ⟨l₁ ++ l₂, by simp [ht₂, ht₁], ?_, ?_⟩
  · rw [nonRewinding_append, hs₁]
    exact ⟨hn₁, hn₂⟩
  · rw [sequenceAfter_append, hs₁, hs₂]

/-- Actions that are not writes, with the processor left alone. -/
theorem writes_quiet {f f' : Frame T E} (l : List (Call T E))
    (ht : f'.trace = f.trace ++ l) (hp : f'.proc = f.proc)
    (h : ∀ c ∈ l, ∀ v, c ≠ Call.set v) : Writes f f' := by
  obtain ⟨h1, h2⟩ := quiet_of_no_set f.proc.sequence_ l h
  exact ⟨l, ht, h1, by rw [h2, hp]⟩

/-- One write of the `Sequence`, at or above its value. -/
theorem writes_set {f f' : Frame T E} (v : Int)
    (ht : f'.trace = f.trace ++ [Call.set v]) (hp : f'.proc.sequence_ = v)
    (h : f.proc.sequence_ ≤ v) : Writes f f' :=
  ⟨[Call.set v], ht, ⟨h, trivial⟩, hp.symm⟩

/-- The inner loop writes nothing. -/
theorem deliverLoop_writes (env : Env T E) (a : Int) (n : Nat) (f f' : Frame T E)
    (r : Option (Raised E)) (h : deliverLoop env a n f = (r, f')) :
    Writes f f' ∧ f.next_sequence ≤ f'.next_sequence ∧ f'.proc = f.proc := by
  obtain ⟨hp, hx, _⟩ := deliverLoop_spec env a n f f' r h
  obtain ⟨l, hl, hc⟩ := deliverLoop_slots env a n f f' r h
  refine ⟨writes_quiet l hl hp ?_, hx.1, hp⟩
  intro c hmem v heq
  obtain ⟨_, _, _, h1⟩ := hc c hmem
  rw [heq] at h1
  exact absurd h1 (by simp)

/-- The `try` block never rewinds the `Sequence`, and keeps it below `next_sequence`. -/
theorem tryBlock_writes (env : Env T E) (f f1 : Frame T E) (r : Option (Raised E))
    (h : tryBlock env f = (r, f1)) (hinv : f.proc.sequence_ < f.next_sequence) :
    Writes f f1 ∧ f1.proc.sequence_ < f1.next_sequence := by
  have hwait : Writes f { f with trace := f.trace ++ [Call.waitFor f.next_sequence] } :=
    writes_quiet [Call.waitFor f.next_sequence] rfl rfl (by simp)
  unfold tryBlock at h
  simp only at h
  split at h
  · simp only [Prod.mk.injEq] at h
    obtain ⟨_, rfl⟩ := h
    exact ⟨hwait, hinv⟩
  · rename_i a hw
    split at h
    · rename_i r' g hdl
      simp only [Prod.mk.injEq] at h
      obtain ⟨_, rfl⟩ := h
      obtain ⟨h1, h2, h3⟩ := deliverLoop_writes env a _ _ _ _ hdl
      refine ⟨writes_trans hwait h1, ?_⟩
      rw [h3]
      simp only at h2 ⊢
      omega
    · rename_i g hdl
      obtain ⟨h1, h2, h3⟩ := deliverLoop_writes env a _ _ _ _ hdl
      simp only at h2
      have hg : g.proc.sequence_ ≤ g.next_sequence - 1 := by
        rw [h3]
        simp only
        omega
      split at h
      · have htick : Writes g { g with trace := g.trace ++
            [Call.onEvent g.next_sequence (decide (g.next_sequence = a)) none] } :=
          writes_quiet _ rfl rfl (by simp)
        split at h
        · simp only [Prod.mk.injEq] at h
          obtain ⟨_, rfl⟩ := h
          refine ⟨writes_trans hwait (writes_trans h1 htick), ?_⟩
          simp only
          omega
        · simp only [commit, Prod.mk.injEq] at h
          obtain ⟨_, rfl⟩ := h
          refine ⟨writes_trans hwait (writes_trans h1 (writes_trans htick
            (writes_set (g.next_sequence - 1) rfl rfl hg))), ?_⟩
          simp only
          omega
      · simp only [commit, Prod.mk.injEq] at h
        obtain ⟨_, rfl⟩ := h
        refine ⟨writes_trans hwait (writes_trans h1
          (writes_set (g.next_sequence - 1) rfl rfl hg)), ?_⟩
        simp only
        omega

/-- The `catch` clauses never rewind the `Sequence`, and keep it below `next_sequence`. -/
theorem catchBlock_writes (env : Env T E) (r : Raised E) (f f' : Frame T E) (st : Step E)
    (h : catchBlock env r f = (st, f')) (hinv : f.proc.sequence_ < f.next_sequence) :
    Writes f f' ∧ f'.proc.sequence_ < f'.next_sequence := by
  have hskip : ∀ g : Frame T E, g.proc.sequence_ < g.next_sequence → Writes g (skip g) :=
    fun g hg => writes_set g.next_sequence rfl rfl (le_of_lt hg)
  unfold catchBlock at h
  split at h
  · simp only [Prod.mk.injEq] at h
    obtain ⟨_, rfl⟩ := h
    exact ⟨writes_refl _, hinv⟩
  · simp only [Prod.mk.injEq] at h
    obtain ⟨_, rfl⟩ := h
    exact ⟨writes_refl _, hinv⟩
  · rename_i e
    split at h
    · simp only [Prod.mk.injEq] at h
      obtain ⟨_, rfl⟩ := h
      exact ⟨hskip f hinv, by simp [skip]⟩
    · have hcall : Writes f { f with trace := f.trace ++
          [Call.handle e f.next_sequence f.event] } :=
        writes_quiet _ rfl rfl (by simp)
      split at h
      · simp only [Prod.mk.injEq] at h
        obtain ⟨_, rfl⟩ := h
        exact ⟨hcall, hinv⟩
      · simp only [Prod.mk.injEq] at h
        obtain ⟨_, rfl⟩ := h
        exact ⟨writes_trans hcall (hskip _ hinv), by simp [skip]⟩

/-- A pass of the loop never rewinds the `Sequence`, and keeps it below
`next_sequence`. -/
theorem iteration_writes (env : Env T E) (f f' : Frame T E) (st : Step E)
    (h : iteration env f = (st, f')) (hinv : f.proc.sequence_ < f.next_sequence) :
    Writes f f' ∧ f'.proc.sequence_ < f'.next_sequence := by
  rw [iteration_eq_tryBlock] at h
  split at h
  · rename_i r f1 htry
    obtain ⟨h1, h2⟩ := tryBlock_writes env _ _ _ htry hinv
    obtain ⟨h3, h4⟩ := catchBlock_writes env r _ _ _ h h2
    exact ⟨writes_trans h1 h3, h4⟩
  · rename_i f1 htry
    simp only [Prod.mk.injEq] at h
    obtain ⟨_, rfl⟩ := h
    exact tryBlock_writes env _ _ _ htry hinv

/-- The loop never rewinds the `Sequence`. -/
theorem loop_writes (env : Env T E) :
    ∀ (n : Nat) (f f' : Frame T E) (x : LoopExit E), loop env n f = (x, f') →
      f.proc.sequence_ < f.next_sequence → Writes f f' := by
  intro n
  induction n with
  | zero =>
    intro f f' x h _
    simp only [loop, Prod.mk.injEq] at h
    obtain ⟨_, rfl⟩ := h
    exact writes_refl _
  | succ n ih =>
    intro f f' x h hinv
    rw [loop] at h
    split at h
    · rename_i f1 hit
      obtain ⟨h1, h2⟩ := iteration_writes env _ _ _ hit hinv
      exact writes_trans h1 (ih _ _ _ h h2)
    · rename_i f1 hit
      obtain ⟨h1, h2⟩ := iteration_writes env _ _ _ hit hinv
      exact writes_trans h1 (ih _ _ _ h h2)
    · rename_i f1 hit
      simp only [Prod.mk.injEq] at h
      obtain ⟨_, rfl⟩ := h
      exact (iteration_writes env _ _ _ hit hinv).1
    · rename_i r f1 hit
      simp only [Prod.mk.injEq] at h
      obtain ⟨_, rfl⟩ := h
      exact (iteration_writes env _ _ _ hit hinv).1

/-- The value of the `Sequence` after writes that never rewind it is at or above the
value before them. -/
theorem le_sequenceAfter (current : Int) (l : List (Call T E))
    (h : nonRewinding current l) : current ≤ sequenceAfter current l := by
  induction l generalizing current with
  | nil => exact le_refl _
  | cons c l ih =>
    cases c with
    | set v => exact le_trans h.1 (ih v h.2)
    | _ => exact ih current h

/-- C17.  In every call of `run`, whatever the barrier returns (also results below what
has been processed) and whichever calls raise, and for every budget of passes: each
write of the processor's `Sequence` among the actions of the call writes a value at or
above the value the `Sequence` holds at that point, starting from its value at the call;
the value the processor holds afterwards is the value of the last write, and it is at or
above the value at the call. -/
theorem sequence_never_rewinds (env : Env T E) (fuel : Nat) (p : BatchEventProcessor)
    (tr : List (Call T E)) :
    ∃ added, (run env fuel p tr).2.2 = tr ++ added ∧
      nonRewinding p.sequence_ added ∧
      sequenceAfter p.sequence_ added = (run env fuel p tr).2.1.sequence_ ∧
      p.sequence_ ≤ (run env fuel p tr).2.1.sequence_ := by
  have key : ∃ added, (run env fuel p tr).2.2 = tr ++ added ∧
      nonRewinding p.sequence_ added ∧
      sequenceAfter p.sequence_ added = (run env fuel p tr).2.1.sequence_ := by
    cases hp : p.running_ with
    | true =>
      rw [run_of_running env fuel p tr hp]
      exact ⟨[], by simp, trivial, rfl⟩
    | false =>
      unfold run
      simp only [hp, compare_exchange_strong, if_true]
      cases hs : env.onStart tr with
      | error r => exact ⟨[Call.onStart], by simp, trivial, rfl⟩
      | ok u =>
        simp only
        cases hl : loop env fuel (enter (store p true) (tr ++ [Call.onStart])) with
        | mk x f =>
          obtain ⟨l, hl', hn, hsq⟩ := loop_writes env _ _ _ _ hl (by simp [enter, store])
          simp only [enter, store] at hl' hn hsq
          have hstart : nonRewinding p.sequence_ (Call.onStart :: l) ∧
              sequenceAfter p.sequence_ (Call.onStart :: l) = f.proc.sequence_ := ⟨hn, hsq⟩
          cases x with
          | broke =>
            simp only
            refine ⟨Call.onStart :: (l ++ [Call.onShutdown]), ?_, ?_, ?_⟩
            · unfold leave
              split <;> simp [hl']
            · have := (nonRewinding_append p.sequence_ (Call.onStart :: l)
                [Call.onShutdown]).2 ⟨hstart.1, trivial⟩
              simpa using this
            · have h1 : sequenceAfter p.sequence_ (Call.onStart :: (l ++ [Call.onShutdown])) =
                  f.proc.sequence_ := by
                have := sequenceAfter_append p.sequence_ (Call.onStart :: l)
                  [Call.onShutdown]
                rw [List.cons_append] at this
                rw [this, hstart.2]
                rfl
              rw [h1]
              unfold leave
              split <;> simp [store]
          | threw r => exact ⟨Call.onStart :: l, by simp [hl'], hstart.1, hstart.2⟩
          | looping => exact ⟨Call.onStart :: l, by simp [hl'], hstart.1, hstart.2⟩
  obtain ⟨added, h1, h2, h3⟩ := key
  exact ⟨added, h1, h2, h3, by rw [← h3]; exact le_sequenceAfter _ _ h2⟩

/-! ## The sequencer -/

namespace Sequencer

/-- The minimum of a sequence and of a list of sequences is at most each of them, and is
one of them. -/
theorem foldl_min_spec : ∀ (gs : List Int) (g : Int),
    gs.foldl min g ≤ g ∧ (∀ x ∈ gs, gs.foldl min g ≤ x) ∧
      (gs.foldl min g = g ∨ gs.foldl min g ∈ gs) := by
  intro gs
  induction gs with
  | nil => intro g; simp
  | cons y ys ih =>
    intro g
    obtain ⟨h1, h2, h3⟩ := ih (min g y)
    simp only [List.foldl_cons, List.mem_cons]
    refine ⟨le_trans h1 (min_le_left _ _), ?_, ?_⟩
    · intro x hx
      rcases hx with rfl | hx
      · exact le_trans h1 (min_le_right _ _)
      · exact h2 x hx
    · rcases h3 with h3 | h3
      · rcases min_choice g y with hm | hm
        · exact Or.inl (by rw [h3, hm])
        · exact Or.inr (Or.inl (by rw [h3, hm]))
      · exact Or.inr (Or.inr h3)

/-- With at least one gating sequence, the wrap bound is
`cursor - min(gating_sequences) <= buffer_size`. -/
theorem wrapBound_iff_min (s : Sequencer) (h : s.gating_sequences_ ≠ []) :
    s.WrapBound ↔ s.cursor_ - getMinimumSequence s.gating_sequences_ ≤ s.buffer_size_ := by
  unfold WrapBound
  cases hg : s.gating_sequences_ with
  | nil => exact absurd hg h
  | cons g gs =>
    obtain ⟨h1, h2, h3⟩ := foldl_min_spec gs g
    simp only [getMinimumSequence, List.mem_cons]
    constructor
    · intro hall
      rcases h3 with h3 | h3
      · rw [h3]; exact hall g (Or.inl rfl)
      · exact hall _ (Or.inr h3)
    · intro hmin x hx
      rcases hx with rfl | hx
      · omega
      · have := h2 x hx
        omega

/-- The input at which C13 fails as it is stated, for every argument.  With the cursor at
5, `forcePublish(3)` leaves the cursor at 3, below its value before; so does
`publish(3)` of the single-producer strategy, as the specification describes it. -/
theorem forcePublish_rewinds_cursor :
    getCursor (forcePublish (construct 4 .singleProducer (-1)) 5) = 5 ∧
    getCursor (forcePublish (forcePublish (construct 4 .singleProducer (-1)) 5) 3) = 3 ∧
    ¬ getCursor (forcePublish (construct 4 .singleProducer (-1)) 5) ≤
      getCursor (forcePublish (forcePublish (construct 4 .singleProducer (-1)) 5) 3) ∧
    (publish (forcePublish (construct 4 .singleProducer (-1)) 5) 3).map getCursor = some 3 :=
  ⟨by rfl, by rfl, by decide, by rfl⟩

/-- C13, as amended.  For every state of the sequencer and every `sequence` at or above
the current cursor: after `forcePublish(sequence)`, and after a `publish(sequence)` that
returns, `getCursor()` is `sequence`, hence at or above its value before. -/
theorem cursor_monotone_for_forward_argument (s : Sequencer) (sequence : Int)
    (h : s.getCursor ≤ sequence) :
    (s.forcePublish sequence).getCursor = sequence ∧
    s.getCursor ≤ (s.forcePublish sequence).getCursor ∧
    ∀ s', s.publish sequence = some s' →
      s'.getCursor = sequence ∧ s.getCursor ≤ s'.getCursor := by
  refine ⟨rfl, h, ?_⟩
  intro s' hp
  have hc : s'.getCursor = sequence := by
    unfold publish publishBatch serialisePublishing at hp
    split at hp
    · simp only [Option.some.injEq] at hp
      subst hp
      rfl
    · split at hp
      · simp only [Option.some.injEq] at hp
        subst hp
        rfl
      · exact absurd hp (by simp)
  exact ⟨hc, by rw [hc]; exact h⟩

/-- With the cursor at 2: `forcePublish(3)` and `publish(3)` move it to 3. -/
theorem cursor_monotone_for_forward_argument_witness :
    (forcePublish (forcePublish (construct 4 .multiProducer (-1)) 2) 3).getCursor = 3 ∧
    (2 : Int) ≤ (forcePublish (forcePublish (construct 4 .multiProducer (-1)) 2) 3).getCursor :=
  have h := cursor_monotone_for_forward_argument
    (forcePublish (construct 4 .multiProducer (-1)) 2) 3 (by decide)
  ⟨h.1, h.2.1⟩

/-- The minimum of the gating sequences is at most each of them. -/
theorem getMinimumSequence_le (l : List Int) (g : Int) (hg : g ∈ l) :
    getMinimumSequence l ≤ g := by
  cases l with
  | nil => exact absurd hg (by simp)
  | cons y ys =>
    obtain ⟨h1, h2, _⟩ := foldl_min_spec ys y
    simp only [getMinimumSequence]
    rcases List.mem_cons.1 hg with rfl | hg
    · exact h1
    · exact h2 g hg

/-- A claim that returns has waited for the claim bound: a `next()` that returns, and a
`claim(sequence)` that returns, leave the claim bound true, whatever held before, and
write neither the cursor nor the gating sequences. -/
theorem claim_establishes_bound (s s' : Sequencer) (r : Int) :
    (s.next = some (r, s') → r = s.claimed + 1) ∧
    (s.next = some (r, s') ∨ (∃ sequence, s.claim sequence = some (r, s')) →
      s'.claimed = r ∧ s'.ClaimBound ∧ s'.cursor_ = s.cursor_ ∧
      s'.gating_sequences_ = s.gating_sequences_ ∧ s'.buffer_size_ = s.buffer_size_) := by
  constructor
  · intro hn
    unfold next incrementAndGet at hn
    split at hn
    · simp only [Option.some.injEq, Prod.mk.injEq] at hn
      exact hn.1.symm
    · exact absurd hn (by simp)
  · intro h
    rcases h with hn | ⟨sequence, hc⟩
    · unfold next incrementAndGet at hn
      split at hn
      · rename_i hguard
        simp only [Option.some.injEq, Prod.mk.injEq] at hn
        obtain ⟨rfl, rfl⟩ := hn
        refine ⟨rfl, ?_, rfl, rfl, rfl⟩
        intro g hg
        have := getMinimumSequence_le s.gating_sequences_ g hg
        simp only
        omega
      · exact absurd hn (by simp)
    · unfold claim setSequence at hc
      split at hc
      · rename_i s'' hs
        split at hs
        · rename_i hguard
          simp only [Option.some.injEq, Prod.mk.injEq] at hs hc
          obtain ⟨rfl, rfl⟩ := hc
          subst hs
          refine ⟨rfl, ?_, rfl, rfl, rfl⟩
          intro g hg
          have := getMinimumSequence_le s.gating_sequences_ g hg
          simp only
          omega
        · exact absurd hs (by simp)
      · exact absurd hc (by simp)

/-- A `publish(sequence)` that returns has set the cursor to `sequence` and written
nothing else. -/
theorem publish_sets_cursor (s s' : Sequencer) (sequence : Int)
    (hp : s.publish sequence = some s') :
    s' = { s with cursor_ := sequence } := by
  unfold publish publishBatch serialisePublishing at hp
  split at hp
  · simp only [Option.some.injEq] at hp
    exact hp.symm
  · split at hp
    · simp only [Option.some.injEq] at hp
      exact hp.symm
    · exact absurd hp (by simp)

/-- The inputs at which C14 fails as it is stated, for every argument.  Buffer of 4.  With
one gating sequence at -1 and the cursor at -1 the wrap bound holds, and
`forcePublish(100)` breaks it; so does `publish(100)` of the single-producer strategy,
as the specification describes it, for a sequence that was never claimed.  With no gating
sequence and the cursor at 100 the wrap bound holds, and `setGatingSequences` with a
sequence at -1 breaks it. -/
theorem wrap_bound_broken_by_forcePublish :
    (setGatingSequences (construct 4 .singleProducer (-1)) [-1]).WrapBound ∧
    ¬ (forcePublish (setGatingSequences (construct 4 .singleProducer (-1)) [-1]) 100).WrapBound ∧
    (∃ s', publish (setGatingSequences (construct 4 .singleProducer (-1)) [-1]) 100 = some s' ∧
      ¬ s'.WrapBound) ∧
    (forcePublish (construct 4 .singleProducer (-1)) 100).WrapBound ∧
    ¬ (setGatingSequences (forcePublish (construct 4 .singleProducer (-1)) 100)
      [-1]).WrapBound := by
  refine ⟨?_, ?_, ⟨_, rfl, ?_⟩, ?_, ?_⟩ <;>
    simp [WrapBound, setGatingSequences, forcePublish, construct]

/-- C14, as amended.  The wrap bound and the claim bound hold in the initial state of a
sequencer, which has no gating sequence.  From every state in which the wrap bound
holds:

* a `next()` that returns, and a `claim(sequence)` that returns, for every argument, keep
  the wrap bound and leave the claim bound true (the claim has waited for it);
* when the claim bound holds, `publish(sequence)`, when it returns, and
  `forcePublish(sequence)`, for every `sequence` at or below the last sequence claimed,
  keep both bounds, the wrap bound even strictly; so the wrap bound holds after a
  `next()` followed by the `publish` of the sequence it returned, and after a
  `claim(sequence)` followed by `publish(sequence)`;
* for an arbitrary argument, the wrap bound holds after `forcePublish(sequence)`, and
  after a `publish(sequence)` that returns, exactly when `sequence` is ahead of no gating
  sequence by more than the buffer size, and after `setGatingSequences(sequences)`
  exactly when the cursor is ahead of none of the new sequences by more than the buffer
  size. -/
theorem wrap_bound_kept_by_claimed_publish (s : Sequencer) (h : s.WrapBound)
    (buffer_size : Int) (option : ClaimStrategyOption) (initial : Int) :
    ((construct buffer_size option initial).WrapBound ∧
      (construct buffer_size option initial).ClaimBound) ∧
    (∀ r s', s.next = some (r, s') → s'.WrapBound ∧ s'.ClaimBound) ∧
    (∀ sequence r s', s.claim sequence = some (r, s') → s'.WrapBound ∧ s'.ClaimBound) ∧
    (s.ClaimBound → ∀ sequence, sequence ≤ s.claimed →
      ((s.forcePublish sequence).WrapBound ∧ (s.forcePublish sequence).ClaimBound ∧
        ∀ g ∈ s.gating_sequences_, (s.forcePublish sequence).cursor_ - g < s.buffer_size_) ∧
      ∀ s', s.publish sequence = some s' →
        s'.WrapBound ∧ s'.ClaimBound ∧
        ∀ g ∈ s.gating_sequences_, s'.cursor_ - g < s.buffer_size_) ∧
    (∀ r s₁ s₂, s.next = some (r, s₁) → s₁.publish r = some s₂ →
      s₂.WrapBound ∧ s₂.cursor_ = s.claimed + 1 ∧
      ∀ g ∈ s.gating_sequences_, s₂.cursor_ - g < s.buffer_size_) ∧
    (∀ sequence r s₁ s₂, s.claim sequence = some (r, s₁) → s₁.publish r = some s₂ →
      s₂.WrapBound ∧ s₂.cursor_ = sequence ∧
      ∀ g ∈ s.gating_sequences_, s₂.cursor_ - g < s.buffer_size_) ∧
    (∀ sequence, ((s.forcePublish sequence).WrapBound ↔
        ∀ g ∈ s.gating_sequences_, sequence - g ≤ s.buffer_size_) ∧
      ∀ s', s.publish sequence = some s' →
        (s'.WrapBound ↔ ∀ g ∈ s.gating_sequences_, sequence - g ≤ s.buffer_size_)) ∧
    (∀ sequences, (s.setGatingSequences sequences).WrapBound ↔
      ∀ g ∈ sequences, s.cursor_ - g ≤ s.buffer_size_) := by
  have hpub : ∀ (t : Sequencer) (x : Int), t.ClaimBound → x ≤ t.claimed →
      ({ t with cursor_ := x } : Sequencer).WrapBound ∧
      ({ t with cursor_ := x } : Sequencer).ClaimBound ∧
      ∀ g ∈ t.gating_sequences_, x - g < t.buffer_size_ := by
    intro t x hcb hx
    refine ⟨?_, hcb, ?_⟩
    · intro g hg
      have := hcb g hg
      simp only
      omega
    · intro g hg
      have := hcb g hg
      omega
  refine ⟨⟨by simp [WrapBound, construct], by simp [ClaimBound, construct]⟩,
    ?_, ?_, ?_, ?_, ?_, ?_, ?_⟩
  · intro r s' hn
    obtain ⟨_, hcb, hc, hg, hb⟩ := (claim_establishes_bound s s' r).2 (Or.inl hn)
    refine ⟨?_, hcb⟩
    intro g hmem
    rw [hc, hb]
    exact h g (hg ▸ hmem)
  · intro sequence r s' hc'
    obtain ⟨_, hcb, hc, hg, hb⟩ :=
      (claim_establishes_bound s s' r).2 (Or.inr ⟨sequence, hc'⟩)
    refine ⟨?_, hcb⟩
    intro g hmem
    rw [hc, hb]
    exact h g (hg ▸ hmem)
  · intro hcb sequence hle
    refine ⟨hpub s sequence hcb hle, ?_⟩
    intro s' hp
    rw [publish_sets_cursor s s' sequence hp]
    exact hpub s sequence hcb hle
  · intro r s₁ s₂ hn hp
    obtain ⟨hcl, hcb, hc, hg, hb⟩ := (claim_establishes_bound s s₁ r).2 (Or.inl hn)
    have hr := (claim_establishes_bound s s₁ r).1 hn
    rw [publish_sets_cursor s₁ s₂ r hp]
    obtain ⟨h1, _, h3⟩ := hpub s₁ r hcb (le_of_eq hcl.symm)
    refine ⟨h1, hr, ?_⟩
    intro g hmem
    rw [← hb]
    exact h3 g (hg ▸ hmem)
  · intro sequence r s₁ s₂ hc' hp
    obtain ⟨hcl, hcb, hc, hg, hb⟩ :=
      (claim_establishes_bound s s₁ r).2 (Or.inr ⟨sequence, hc'⟩)
    have hr : r = sequence := by
      unfold claim at hc'
      split at hc'
      · simp only [Option.some.injEq, Prod.mk.injEq] at hc'
        exact hc'.1.symm
      · exact absurd hc' (by simp)
    rw [publish_sets_cursor s₁ s₂ r hp]
    obtain ⟨h1, _, h3⟩ := hpub s₁ r hcb (le_of_eq hcl.symm)
    refine ⟨h1, hr, ?_⟩
    intro g hmem
    rw [← hb]
    exact h3 g (hg ▸ hmem)
  · intro sequence
    refine ⟨Iff.rfl, ?_⟩
    intro s' hp
    rw [publish_sets_cursor s s' sequence hp]
    exact Iff.rfl
  · intro sequences
    exact Iff.rfl

/-- Buffer of 4, one gating sequence at -1, nothing published: `next()` returns 0, and
after `publish(0)` the wrap bound holds with the cursor at 0; with 0..3 claimed and
published the fifth `next()` does not return. -/
theorem wrap_bound_kept_by_claimed_publish_witness :
    ({ buffer_size_ := 4, cursor_ := 0, gating_sequences_ := [-1],
       claim_strategy_option := .singleProducer, claimed := 0 } : Sequencer).WrapBound ∧
    (setGatingSequences (construct 4 .singleProducer (-1)) [-1]).next =
      some (0, { buffer_size_ := 4, cursor_ := -1, gating_sequences_ := [-1],
                 claim_strategy_option := .singleProducer, claimed := 0 }) ∧
    next { buffer_size_ := 4, cursor_ := 3, gating_sequences_ := [-1],
           claim_strategy_option := .singleProducer, claimed := 3 } = none :=
  ⟨((wrap_bound_kept_by_claimed_publish
      (setGatingSequences (construct 4 .singleProducer (-1)) [-1])
      (by simp [WrapBound, setGatingSequences, construct]) 4 .singleProducer (-1)).2.2.2.2.1
      0 { buffer_size_ := 4, cursor_ := -1, gating_sequences_ := [-1],
          claim_strategy_option := .singleProducer, claimed := 0 }
      { buffer_size_ := 4, cursor_ := 0, gating_sequences_ := [-1],
        claim_strategy_option := .singleProducer, claimed := 0 } (by rfl) (by rfl)).1,
   by rfl, by rfl⟩

end Sequencer

namespace Sequencer

/-- Below a full buffer the diagnostics count the slots: with `0 ≤ p - c < n` for the
cursor `p`, the gating minimum `c` and the buffer size `n`, `occupiedCapacity()` is
`p - c` and `remainingCapacity()` is `n - (p - c)`. -/
theorem capacity_below_full (s : Sequencer)
    (h0 : 0 ≤ s.cursor_ - getMinimumSequence s.gating_sequences_)
    (h1 : s.cursor_ - getMinimumSequence s.gating_sequences_ < s.buffer_size_) :
    s.occupiedCapacity = s.cursor_ - getMinimumSequence s.gating_sequences_ ∧
    s.remainingCapacity =
      s.buffer_size_ - (s.cursor_ - getMinimumSequence s.gating_sequences_) := by
  have hocc : s.occupiedCapacity =
      s.cursor_ - getMinimumSequence s.gating_sequences_ := by
    unfold occupiedCapacity
    simp only
    rw [Int.tmod_eq_emod (by omega) (by omega)]
    have : s.buffer_size_ + s.cursor_ - getMinimumSequence s.gating_sequences_ =
        (s.cursor_ - getMinimumSequence s.gating_sequences_) + s.buffer_size_ := by ring
    rw [this, Int.add_emod_self]
    exact Int.emod_eq_of_lt h0 h1
  exact ⟨hocc, by unfold remainingCapacity capacity; rw [hocc]⟩

/-- C15, at the input where the code departs from it.  Buffer of 4, one gating sequence
at -1 (nothing consumed), cursor at 3 (sequences 0..3 published): `p - c = 4 = n`, all
four slots are taken, and `occupiedCapacity()` returns 0, `remainingCapacity()` 4. -/
theorem capacity_of_full_buffer :
    (forcePublish (setGatingSequences (construct 4 .singleProducer (-1)) [-1]) 3).cursor_ -
      getMinimumSequence
        (forcePublish (setGatingSequences (construct 4 .singleProducer (-1)) [-1])
          3).gating_sequences_ = 4 ∧
    (forcePublish (setGatingSequences (construct 4 .singleProducer (-1)) [-1])
      3).occupiedCapacity = 0 ∧
    (forcePublish (setGatingSequences (construct 4 .singleProducer (-1)) [-1])
      3).remainingCapacity = 4 :=
  ⟨by rfl, by rfl, by rfl⟩

/-- C19.  For a buffer size `n > 0`, the cursor `p` and the gating minimum `c` with
`p - c ≥ -n`: `occupiedCapacity()` is between 0 and `n - 1`; `remainingCapacity()` is
`capacity() - occupiedCapacity()` and is between 1 and `n`, so it is never 0;
`occupiedCapacity()` is `(p - c) mod n`, so that two states with the same buffer size
whose `p - c` agree modulo `n` have the same `occupiedCapacity()`. -/
theorem capacity_bounds (s : Sequencer) (hn : 0 < s.buffer_size_)
    (hd : -s.buffer_size_ ≤ s.cursor_ - getMinimumSequence s.gating_sequences_) :
    0 ≤ s.occupiedCapacity ∧ s.occupiedCapacity ≤ s.buffer_size_ - 1 ∧
    s.remainingCapacity = s.capacity - s.occupiedCapacity ∧
    1 ≤ s.remainingCapacity ∧ s.remainingCapacity ≤ s.buffer_size_ ∧
    s.remainingCapacity ≠ 0 ∧
    s.occupiedCapacity =
      (s.cursor_ - getMinimumSequence s.gating_sequences_) % s.buffer_size_ ∧
    ∀ s' : Sequencer, s'.buffer_size_ = s.buffer_size_ →
      -s'.buffer_size_ ≤ s'.cursor_ - getMinimumSequence s'.gating_sequences_ →
      (s'.cursor_ - getMinimumSequence s'.gating_sequences_) % s.buffer_size_ =
        (s.cursor_ - getMinimumSequence s.gating_sequences_) % s.buffer_size_ →
      s'.occupiedCapacity = s.occupiedCapacity := by
  have hocc : ∀ t : Sequencer, 0 < t.buffer_size_ →
      -t.buffer_size_ ≤ t.cursor_ - getMinimumSequence t.gating_sequences_ →
      t.occupiedCapacity =
        (t.cursor_ - getMinimumSequence t.gating_sequences_) % t.buffer_size_ := by
    intro t htn htd
    unfold occupiedCapacity
    simp only
    rw [Int.tmod_eq_emod (by omega) (by omega)]
    have : t.buffer_size_ + t.cursor_ - getMinimumSequence t.gating_sequences_ =
        (t.cursor_ - getMinimumSequence t.gating_sequences_) + t.buffer_size_ := by ring
    rw [this, Int.add_emod_self]
  have h1 := hocc s hn hd
  have hlo : 0 ≤ (s.cursor_ - getMinimumSequence s.gating_sequences_) % s.buffer_size_ :=
    Int.emod_nonneg _ (by omega)
  have hhi : (s.cursor_ - getMinimumSequence s.gating_sequences_) % s.buffer_size_ <
      s.buffer_size_ := Int.emod_lt_of_pos _ hn
  have hrem : s.remainingCapacity = s.capacity - s.occupiedCapacity := rfl
  refine ⟨by omega, by omega, hrem, ?_, ?_, ?_, h1, ?_⟩
  · rw [hrem, capacity]; omega
  · rw [hrem, capacity]; omega
  · rw [hrem, capacity]; omega
  · intro s' hs' hd' hmod
    rw [hocc s' (by omega) hd', h1, hs', hmod]

/-- A full buffer of 4 (cursor 3, gating sequence -1): `occupiedCapacity()` is 0 and
`remainingCapacity()` is 4. -/
theorem capacity_bounds_witness :
    (forcePublish (setGatingSequences (construct 4 .singleProducer (-1)) [-1])
      3).occupiedCapacity = (3 - -1 : Int) % 4 ∧
    (1 : Int) ≤ (forcePublish (setGatingSequences (construct 4 .singleProducer (-1)) [-1])
      3).remainingCapacity :=
  have h := capacity_bounds
    (forcePublish (setGatingSequences (construct 4 .singleProducer (-1)) [-1]) 3)
    (by decide) (by decide)
  ⟨h.2.2.2.2.2.2.1, h.2.2.2.1⟩

end Sequencer

/-! ## The no-op processor -/

/-- C16.  For a `NoOpEventProcessor` over a sequencer, in every state of the sequencer:
reading the exposed `Sequence` gives `getCursor()`; so after `forcePublish(sequence)`,
and after a `publish(sequence)` that returns, it gives the new cursor, `sequence`;
`run()` and `halt()` leave the state as it is, so the cursor and the value read are the
same before and after. -/
theorem noOp_follows_cursor (s : Sequencer) :
    NoOpEventProcessor.get s = s.getCursor ∧
    (∀ sequence, NoOpEventProcessor.get (s.forcePublish sequence) = sequence) ∧
    (∀ sequence s', s.publish sequence = some s' →
      NoOpEventProcessor.get s' = s'.getCursor ∧ NoOpEventProcessor.get s' = sequence) ∧
    NoOpEventProcessor.run s = s ∧ NoOpEventProcessor.halt s = s ∧
    (NoOpEventProcessor.run s).getCursor = s.getCursor ∧
    (NoOpEventProcessor.halt s).getCursor = s.getCursor ∧
    NoOpEventProcessor.get (NoOpEventProcessor.run s) = NoOpEventProcessor.get s ∧
    NoOpEventProcessor.get (NoOpEventProcessor.halt s) = NoOpEventProcessor.get s := by
  refine ⟨rfl, fun _ => rfl, ?_, rfl, rfl, rfl, rfl, rfl, rfl⟩
  intro sequence s' hp
  refine ⟨rfl, ?_⟩
  unfold Sequencer.publish Sequencer.publishBatch Sequencer.serialisePublishing at hp
  split at hp
  · simp only [Option.some.injEq] at hp
    subst hp
    rfl
  · split at hp
    · simp only [Option.some.injEq] at hp
      subst hp
      rfl
    · exact absurd hp (by simp)

end Disruptor
